import Mathlib
/-!
Verification development for the charge_assign repository.

The Python sources are embedded shallowly:
* Python `dict`s (insertion-ordered, unique keys) become association lists
  with first-match lookup, in-place update and first-match deletion.
* Charges (`float`, used only for ordering, equality and storage) become `ℚ`.
* Fingerprints (md5 hexdigests) become `String`.
* `bisect.bisect_left` is embedded as the actual binary search loop.
* The external dreadnaut solver is abstracted as fingerprint oracles
  (`Nat → Nat → Fp`): `canonize_neighborhood` is deterministic for a fixed
  molecule file, which is all the repository code relies on.
* Raised exceptions become `Except`/`Option` error results.
-/
/-! ## Python dict as an association list -/
/-- Lookup `d[k]`: first entry whose key equals `k`. -/
def dget {K V : Type} [DecidableEq K] : List (K × V) → K → Option V
  | [], _ => none
  | (k', v) :: d, k => if k = k' then some v else dget d k
/-- Python `k in d`. -/
def dmem {K V : Type} [DecidableEq K] (d : List (K × V)) (k : K) : Prop :=
  dget d k ≠ none
instance {K V : Type} [DecidableEq K] (d : List (K × V)) (k : K) :
    Decidable (dmem d k) :=
  decidable_of_iff ((dget d k).isSome = true)
    (by simp [dmem, Option.isSome_iff_ne_none])
/-- Assignment `d[k] = v`: update the entry in place if the key is present,
append a new entry otherwise (Python dicts preserve insertion order). -/
def dset {K V : Type} [DecidableEq K] : List (K × V) → K → V → List (K × V)
  | [], k, v => [(k, v)]
  | (k', v') :: d, k, v =>
      if k = k' then (k, v) :: d else (k', v') :: dset d k v
/-- Deletion `del d[k]`: remove the first entry with key `k`. -/
def derase {K V : Type} [DecidableEq K] : List (K × V) → K → List (K × V)
  | [], _ => []
  | (k', v') :: d, k => if k = k' then d else (k', v') :: derase d k
/-- Keys of a dict. -/
def dkeys {K V : Type} (d : List (K × V)) : List K := d.map Prod.fst
/-! ## bisect.bisect_left and sorted insertion/removal

Embeds the CPython `bisect_left(a, x)` binary search loop:
`lo, hi = 0, len(a); while lo < hi: mid = (lo+hi)//2;`
`if a[mid] < x: lo = mid+1 else: hi = mid; return lo`.
-/
/-- Loop body of `bisect.bisect_left`. -/
def bisectLeftAux (a : List ℚ) (x : ℚ) (lo hi : Nat) : Nat :=
  if h : lo < hi then
    let mid := (lo + hi) / 2
    if a.getD mid 0 < x then bisectLeftAux a x (mid + 1) hi
    else bisectLeftAux a x lo mid
  else lo
termination_by hi - lo
decreasing_by
  · omega
  · omega
/-- Python `bisect.bisect_left(a, x)`. -/
def bisectLeft (a : List ℚ) (x : ℚ) : Nat := bisectLeftAux a x 0 a.length
/-- Python `bisect.insort_left(a, x)`, i.e. `a.insert(bisect_left(a, x), x)`. -/
def insortLeft (a : List ℚ) (x : ℚ) : List ℚ := a.insertIdx (bisectLeft a x) x
/-! ## Charge stores

`charges_iacm` / `charges_elem`: dict keyed by shell size, of dicts keyed by
neighborhood fingerprint, of ascending lists of charges. -/
/-- Fingerprints are md5 hexdigest strings. -/
abbrev Fp := String
abbrev Bucket := List ℚ
abbrev ShellDict := List (Fp × Bucket)
abbrev Store := List (Nat × ShellDict)
/-- Closure `a(shell, key, partial_charge, repo)` in `Repository.add`:
`if shell not in repo: repo[shell] = dict()`;
`if key not in repo[shell]: repo[shell][key] = []`;
`bisect.insort_left(repo[shell][key], partial_charge)`. -/
def insertCharge (st : Store) (shell : Nat) (key : Fp) (c : ℚ) : Store :=
  let d := (dget st shell).getD []
  let l := (dget d key).getD []
  dset st shell (dset d key (insortLeft l c))
/-- Closure `s(shell, key, partial_charge, repo)` in `Repository.subtract`:
`repo[shell][key].pop(bisect.bisect_left(repo[shell][key], partial_charge))`;
`if len(repo[shell][key]) == 0: del repo[shell][key]`;
`if len(repo[shell]) == 0: del repo[shell]`.
Yields `none` where the Python code raises (missing shell or key, or `pop`
on an out-of-range index). -/
def removeCharge (st : Store) (shell : Nat) (key : Fp) (c : ℚ) : Option Store :=
  match dget st shell with
  | none => none
  | some d =>
    match dget d key with
    | none => none
    | some l =>
      if bisectLeft l c < l.length then
        let l' := l.eraseIdx (bisectLeft l c)
        let d' := if l'.isEmpty then derase d key else dset d key l'
        some (if d'.isEmpty then derase st shell else dset st shell d')
      else none
/-- Well-formed store: unique keys at both levels, no empty shell dicts,
no empty buckets, all buckets sorted ascending. -/
def wfStore (st : Store) : Prop :=
  (dkeys st).Nodup ∧
  ∀ p ∈ st, (dkeys p.2).Nodup ∧ p.2 ≠ [] ∧
    ∀ q ∈ p.2, q.2 ≠ [] ∧ q.2.Sorted (· ≤ ·)
/-- Two-level lookup: the bucket at a shell and fingerprint, if present. -/
def lookup2 (st : Store) (shell : Nat) (key : Fp) : Option Bucket :=
  (dget st shell).bind (fun d => dget d key)
/-- Bucket contents as a multiset (empty if the bucket is absent). -/
def absB (st : Store) (shell : Nat) (key : Fp) : Multiset ℚ :=
  ↑((lookup2 st shell key).getD [])
/-! ## Molecules and the `__iterate` traversal

`Repository.add`/`Repository.subtract` read the molecule's file, then for
each shell in `range(1, max_shell + 1)` walk `_iter_atomic_fragments`,
which checks each atom's `partial_charge` attribute and yields
`(canonize_neighborhood(graph, atom, shell), partial_charge)`.

A molecule file is embedded as its parsed graph's observable content: the
atom list with optional `partial_charge` attributes, plus one fingerprint
oracle per typing (`canonize_neighborhood` is a deterministic function of
the graph, the atom and the shell; the IACM→element remapping of
`__iterate` only changes which oracle applies). -/
structure MolIn where
  atoms : List (Nat × Option ℚ)
  fpIacm : Nat → Nat → Fp
  fpElem : Nat → Nat → Fp
/-- Errors raised inside `add`/`subtract`. -/
inductive OpErr
  | missingCharge (atom : Nat)
  | storeKeyErr
  | isoAttrErr
deriving DecidableEq
/-- The shell/atom double loop of `__iterate` over one molecule and one
typing, applying the callback `f` to each `(shell, key, partial_charge)`.
An atom without `partial_charge` raises, as in `_iter_atomic_fragments`. -/
def iterFragments (atoms : List (Nat × Option ℚ)) (fp : Nat → Nat → Fp)
    (maxShell : Nat) (f : Store → Nat → Fp → ℚ → Except OpErr Store)
    (st : Store) : Except OpErr Store :=
  (List.range' 1 maxShell).foldlM (fun st1 shell =>
    atoms.foldlM (fun st2 ac =>
      match ac.2 with
      | none => .error (.missingCharge ac.1)
      | some c => f st2 shell (fp ac.1 shell) c) st1) st
/-- Callback of `Repository.add` (`a()`). -/
def addCallback (st : Store) (shell : Nat) (key : Fp) (c : ℚ) :
    Except OpErr Store :=
  .ok (insertCharge st shell key c)
/-- Callback of `Repository.subtract` (`s()`); raising on a missing bucket
or an out-of-range `pop`. -/
def subCallback (st : Store) (shell : Nat) (key : Fp) (c : ℚ) :
    Except OpErr Store :=
  match removeCharge st shell key c with
  | none => .error .storeKeyErr
  | some st' => .ok st'
/-- Isomorphism index: molid to the list of molids sharing its
whole-molecule fingerprint. -/
abbrev Iso := List (Nat × List Nat)
/-- A `charge.repository.Repository` object. The isomorphism indices are
`Option`-valued because `__init__` never assigns `self.__iso_iacm` /
`self.__iso_elem`: only `create_from` and `read` do, and reading the
attribute on a freshly constructed object raises `AttributeError`. -/
structure Repository where
  minShell : Nat
  maxShell : Nat
  chargesIacm : Store
  chargesElem : Store
  isoIacm : Option Iso
  isoElem : Option Iso
deriving DecidableEq
/-- Embeds `Repository(min_shell, max_shell)`: empty charge stores, no isomorphism
index attributes (`__min_shell = max(min_shell, 0)` is the identity here
since shells are embedded as `Nat`). -/
def Repository.init (minShell : Nat := 1) (maxShell : Nat := 7) : Repository :=
  { minShell := minShell, maxShell := maxShell,
    chargesIacm := [], chargesElem := [], isoIacm := none, isoElem := none }
/-- The molid sets built at the top of `__iterate`:
`ids_iacm = {molid}; ids_elem = {molid}`, then two guarded
`ids_iacm.union(...)` calls whose results are discarded (`set.union`
returns a new set; it does not mutate `ids_iacm`). -/
def iterIds (molid : Nat) (isoIacm isoElem : Iso) : List Nat × List Nat :=
  let idsIacm : List Nat := [molid]
  let idsElem : List Nat := [molid]
  let _unusedUnion1 : List Nat :=
    if dmem isoIacm molid then idsIacm ++ (dget isoIacm molid).getD [] else idsIacm
  let _unusedUnion2 : List Nat :=
    if dmem isoElem molid then idsIacm ++ (dget isoElem molid).getD [] else idsIacm
  (idsIacm, idsElem)
/-- Embeds `Repository.add(data_location, molid, data_type)`: `__iterate` with the
`a()` insertion callback, first over `ids_iacm` against `charges_iacm`
(IACM typing), then over `ids_elem` against `charges_elem` (element
typing). `files` maps a molid to the parsed content of its file. -/
def Repository.add (r : Repository) (files : Nat → MolIn) (molid : Nat) :
    Except OpErr Repository :=
  match r.isoIacm, r.isoElem with
  | some isoI, some isoE =>
    let ids := iterIds molid isoI isoE
    do
      let ci ← ids.1.foldlM (fun st mid =>
          iterFragments (files mid).atoms (files mid).fpIacm r.maxShell
            addCallback st) r.chargesIacm
      let ce ← ids.2.foldlM (fun st mid =>
          iterFragments (files mid).atoms (files mid).fpElem r.maxShell
            addCallback st) r.chargesElem
      .ok { r with chargesIacm := ci, chargesElem := ce }
  | _, _ => .error .isoAttrErr
/-- Embeds `Repository.subtract(data_location, molid, data_type)`: `__iterate`
with the `s()` removal callback. -/
def Repository.subtract (r : Repository) (files : Nat → MolIn) (molid : Nat) :
    Except OpErr Repository :=
  match r.isoIacm, r.isoElem with
  | some isoI, some isoE =>
    let ids := iterIds molid isoI isoE
    do
      let ci ← ids.1.foldlM (fun st mid =>
          iterFragments (files mid).atoms (files mid).fpIacm r.maxShell
            subCallback st) r.chargesIacm
      let ce ← ids.2.foldlM (fun st mid =>
          iterFragments (files mid).atoms (files mid).fpElem r.maxShell
            subCallback st) r.chargesElem
      .ok { r with chargesIacm := ci, chargesElem := ce }
  | _, _ => .error .isoAttrErr
/-- All `(shell, key, charge)` triples `__iterate` feeds to its callback
for one molecule and one typing, when every atom carries a charge. -/
def molTriples (atoms : List (Nat × Option ℚ)) (fp : Nat → Nat → Fp)
    (maxShell : Nat) : List (Nat × Fp × ℚ) :=
  (List.range' 1 maxShell).flatMap (fun s =>
    atoms.filterMap (fun ac => ac.2.map (fun c => (s, fp ac.1 s, c))))
/-- Charges a triple list contributes to the bucket at `(s, k)`. -/
def listDelta (ts : List (Nat × Fp × ℚ)) (s : Nat) (k : Fp) : Multiset ℚ :=
  ↑(ts.filterMap (fun t => if t.1 = s ∧ t.2.1 = k then some t.2.2 else none))
/-- Every atom of the molecule carries a `partial_charge` attribute. -/
def chargedAtoms (atoms : List (Nat × Option ℚ)) : Prop :=
  ∀ ac ∈ atoms, ac.2 ≠ none
/-- Pure fold of `a()` insertions over a triple list. -/
def foldIns (st : Store) (ts : List (Nat × Fp × ℚ)) : Store :=
  ts.foldl (fun st1 t => insertCharge st1 t.1 t.2.1 t.2.2) st
/-- One `s()` step addressed by a triple. -/
def subStep (st : Store) (t : Nat × Fp × ℚ) : Except OpErr Store :=
  subCallback st t.1 t.2.1 t.2.2
/-- Python `==` on the nested store dicts: same shell keys, and the same
bucket (or absence) at every shell and fingerprint. -/
def storeExtEq (st1 st2 : Store) : Prop :=
  (∀ s, (dget st1 s).isSome = (dget st2 s).isSome) ∧
  ∀ s k, lookup2 st1 s k = lookup2 st2 s k
/-! ## Sequences of add and subtract calls -/
/-- One incremental mutation call on a repository. -/
inductive Op
  | addMol (molid : Nat)
  | subMol (molid : Nat)
/-- Run one call. -/
def applyOp (files : Nat → MolIn) (r : Repository) : Op → Except OpErr Repository
  | .addMol m => Repository.add r files m
  | .subMol m => Repository.subtract r files m
/-- Run a sequence of calls, stopping at the first raised error. -/
def runTrace (files : Nat → MolIn) (r : Repository) : List Op → Except OpErr Repository
  | [] => .ok r
  | op :: ops => applyOp files r op >>= fun r1 => runTrace files r1 ops
/-- Valid call sequences: each subtract removes a molecule previously added
and still contributing. `ValidTrace c ops c'` relates the multiset of
currently-added molecule ids before and after the calls. -/
inductive ValidTrace : Multiset Nat → List Op → Multiset Nat → Prop
  | nil (c : Multiset Nat) : ValidTrace c [] c
  | add (c c' : Multiset Nat) (m : Nat) (ops : List Op)
      (h : ValidTrace (m ::ₘ c) ops c') : ValidTrace c (Op.addMol m :: ops) c'
  | sub (c c' : Multiset Nat) (m : Nat) (ops : List Op) (hm : m ∈ c)
      (h : ValidTrace (c.erase m) ops c') : ValidTrace c (Op.subMol m :: ops) c'
/-- Charges contributed by one molecule to the bucket at `(s, k)` under the
IACM typing. -/
def molDeltaI (files : Nat → MolIn) (maxShell : Nat) (m : Nat) (s : Nat) (k : Fp) :
    Multiset ℚ :=
  listDelta (molTriples (files m).atoms (files m).fpIacm maxShell) s k
/-- Charges contributed by one molecule to the bucket at `(s, k)` under the
element typing. -/
def molDeltaE (files : Nat → MolIn) (maxShell : Nat) (m : Nat) (s : Nat) (k : Fp) :
    Multiset ℚ :=
  listDelta (molTriples (files m).atoms (files m).fpElem maxShell) s k
/-- Multiset of charges contributed by the currently-added molecules to the
bucket at `(s, k)`, IACM typing. -/
def expectedI (files : Nat → MolIn) (maxShell : Nat) (c : Multiset Nat)
    (s : Nat) (k : Fp) : Multiset ℚ :=
  (c.map (fun m => molDeltaI files maxShell m s k)).sum
/-- Multiset of charges contributed by the currently-added molecules to the
bucket at `(s, k)`, element typing. -/
def expectedE (files : Nat → MolIn) (maxShell : Nat) (c : Multiset Nat)
    (s : Nat) (k : Fp) : Multiset ℚ :=
  (c.map (fun m => molDeltaE files maxShell m s k)).sum
/-! ## Isomorphism index construction (`Repository.__make_isomorphics`) -/
/-- Python `itertools.groupby(xs, key)`: groups only CONSECUTIVE elements
with equal keys into runs. -/
def groupRuns {A B : Type} [DecidableEq B] (key : A → B) : List A → List (List A)
  | [] => []
  | a :: rest =>
      match groupRuns key rest with
      | [] => [[a]]
      | g :: gs =>
          match g with
          | [] => [a] :: gs
          | b :: _ => if key a = key b then (a :: g) :: gs else [a] :: g :: gs
/-- Embeds `Repository.__make_isomorphics(molids, canons)`:
`for _, group in groupby(molids, key=lambda molid: canons[molid]):`
`  isogroup = list(group);`
`  if len(isogroup) > 1: for molid in isogroup: isomorphics[molid] = isogroup`. -/
def makeIsomorphics (molids : List Nat) (canons : Nat → Fp) : Iso :=
  (groupRuns canons molids).foldl (fun iso g =>
    if 1 < g.length then g.foldl (fun iso2 m => dset iso2 m g) iso else iso) []
/-! ## Nauty process management (`Nauty.__ensure_dreadnaut_running`) -/
/-- One dreadnaut subprocess: `poll()` returns `none` while it runs and
its exit status once it has exited. -/
structure DreadnautProc where
  exitCode : Option Int
/-- Embeds `subprocess.Popen.poll()`. -/
def DreadnautProc.poll (p : DreadnautProc) : Option Int := p.exitCode
/-- The `self.__process` slot of a `Nauty` object. -/
structure NautyState where
  process : Option DreadnautProc
/-- Python truthiness of a `poll()` result: `None` and `0` are falsy,
any other exit status is truthy. -/
def pollTruthy : Option Int → Bool
  | none => false
  | some code => code != 0
/-- Embeds `Nauty.__ensure_dreadnaut_running`:
`if not self.__process or self.__process.poll(): self.__process =`
`subprocess.Popen(...)` — the fresh process is running (`poll()` is
`None`). -/
def ensureDreadnautRunning (st : NautyState) : NautyState :=
  match st.process with
  | none => { process := some { exitCode := none } }
  | some p =>
      if pollTruthy p.poll then { process := some { exitCode := none } }
      else st
/-! ## Archive persistence (`Repository.write` / `Repository.read`)

The zip archive holds five named entries, each a msgpack document.
`MVal` is the msgpack object model actually used: integers, strings,
floats (embedded as `ℚ`), arrays and maps; the byte-level msgpack
encoding is the external library, which round-trips each `MVal`
document exactly. -/
inductive MVal
  | mint (n : Int)
  | mstr (s : String)
  | mrat (q : ℚ)
  | marr (l : List MVal)
  | mmap (l : List (MVal × MVal))
/-- The five named entries written by `Repository.write`. -/
structure Archive where
  meta : MVal
  charges_iacm : MVal
  charges_elem : MVal
  iso_iacm : MVal
  iso_elem : MVal
def encBucket (l : Bucket) : MVal := .marr (l.map .mrat)
def encShellDict (d : ShellDict) : MVal :=
  .mmap (d.map (fun p => (.mstr p.1, encBucket p.2)))
def encStore (st : Store) : MVal :=
  .mmap (st.map (fun p => (.mint p.1, encShellDict p.2)))
def encIsoGroup (g : List Nat) : MVal := .marr (g.map (fun m : Nat => .mint (m : Int)))
def encIso (iso : Iso) : MVal :=
  .mmap (iso.map (fun p => (.mint p.1, encIsoGroup p.2)))
/-- Embeds `Repository.write(out)`: packs `(min_shell, max_shell)` and the four
dicts into the five zip entries. Reading `self.__iso_iacm` on a repository
that never had it assigned raises `AttributeError` (`none`). -/
def Repository.write (r : Repository) : Option Archive :=
  match r.isoIacm, r.isoElem with
  | some iI, some iE => some
      { meta := .marr [.mint r.minShell, .mint r.maxShell],
        charges_iacm := encStore r.chargesIacm,
        charges_elem := encStore r.chargesElem,
        iso_iacm := encIso iI,
        iso_elem := encIso iE }
  | _, _ => none
def decRat : MVal → Option ℚ
  | .mrat q => some q
  | _ => none
def decBucket : MVal → Option Bucket
  | .marr l => l.mapM decRat
  | _ => none
def decShellEntry : MVal × MVal → Option (Fp × Bucket)
  | (.mstr s, v) => (decBucket v).map (fun b => (s, b))
  | _ => none
def decShellDict : MVal → Option ShellDict
  | .mmap l => l.mapM decShellEntry
  | _ => none
def decNat : MVal → Option Nat
  | .mint n => if 0 ≤ n then some n.toNat else none
  | _ => none
def decStoreEntry (p : MVal × MVal) : Option (Nat × ShellDict) :=
  (decNat p.1).bind (fun s => (decShellDict p.2).map (fun d => (s, d)))
def decStore : MVal → Option Store
  | .mmap l => l.mapM decStoreEntry
  | _ => none
def decIsoGroup : MVal → Option (List Nat)
  | .marr l => l.mapM decNat
  | _ => none
def decIsoEntry (p : MVal × MVal) : Option (Nat × List Nat) :=
  (decNat p.1).bind (fun m => (decIsoGroup p.2).map (fun g => (m, g)))
def decIso : MVal → Option Iso
  | .mmap l => l.mapM decIsoEntry
  | _ => none
/-- Embeds `Repository.read(location)`: unpacks the two shell bounds from `meta`
and the four dicts, overwriting the fields of a fresh `Repository()` and
assigning both isomorphism-index attributes. -/
def Repository.read (a : Archive) : Option Repository :=
  match a.meta with
  | .marr [mn, mx] =>
      (decNat mn).bind fun minS =>
      (decNat mx).bind fun maxS =>
      (decStore a.charges_iacm).bind fun cI =>
      (decStore a.charges_elem).bind fun cE =>
      (decIso a.iso_iacm).bind fun iI =>
      (decIso a.iso_elem).bind fun iE =>
      some { minShell := minS, maxShell := maxS, chargesIacm := cI,
             chargesElem := cE, isoIacm := some iI, isoElem := some iE }
  | _ => none
/-! ## Filtered leave-one-out views (`charge.validation`) -/
/-- A traceable charge bucket: `(charge, molid, atom)` triples. -/
abbrev TBucket := List (ℚ × Nat × Nat)
/-- One shell of a traceable store: fingerprint to traceable bucket. -/
abbrev TShellDict := List (Fp × TBucket)
/-- Modelled from the spec: the traceable Repository
(`create_from(..., traceable=True)`) and its public `iso_iacm` /
`iso_elem` attributes, which `validation.py` reads but the provided
`repository.py` does not define — in "traceable" mode each bucket retains
`(charge, molid, atom)` triples instead of bare charges, and the
isomorphism indices are readable by clients. -/
structure TraceableRepository where
  charges_iacm : List (Nat × TShellDict)
  charges_elem : List (Nat × TShellDict)
  iso_iacm : Iso
  iso_elem : Iso
/-- A `_FilteredCharges` facade: a traceable per-shell dict plus the
blocked molids. -/
structure FilteredCharges where
  charges : TShellDict
  blocked_molids : List Nat
/-- Embeds `_FilteredCharges.__filtered_copy`:
`[charge for charge, molid, _ in traceable_charges`
` if molid not in self.__blocked_molids]`. -/
def filteredCopy (tcs : TBucket) (blocked : List Nat) : List ℚ :=
  (tcs.filter (fun t => decide (t.2.1 ∉ blocked))).map (fun t => t.1)
/-- Embeds `_FilteredCharges.__getitem__`: `KeyError` (`none`) when the key is
absent or the filtered list is empty. -/
def FilteredCharges.getItem (fc : FilteredCharges) (key : Fp) :
    Option (List ℚ) :=
  match dget fc.charges key with
  | some tcs =>
      let cs := filteredCopy tcs fc.blocked_molids
      if cs.length = 0 then none else some cs
  | none => none
/-- Embeds `_FilteredCharges.__setitem__` is `pass`: assignment does nothing. -/
def FilteredCharges.setItem (fc : FilteredCharges) (_key : Fp)
    (_value : List ℚ) : FilteredCharges := fc
/-- Embeds `_FilteredCharges.__delitem__` is `pass`: deletion does nothing. -/
def FilteredCharges.delItem (fc : FilteredCharges) (_key : Fp) :
    FilteredCharges := fc
/-- A `_FilteredRepository`: per-shell `_FilteredCharges` facades for both
typings. -/
structure FilteredRepository where
  charges_iacm : List (Nat × FilteredCharges)
  charges_elem : List (Nat × FilteredCharges)
/-- Embeds `_FilteredRepository.__init__(repo, molid)`: the exclusion set is
`repo.iso_iacm[molid]` if present, else `[molid]` (same per typing), and
each shell of the underlying store is wrapped in a `_FilteredCharges`
facade over the same dict object. -/
def filteredRepository (repo : TraceableRepository) (molid : Nat) :
    FilteredRepository :=
  let iacmExcluded :=
    if dmem repo.iso_iacm molid then (dget repo.iso_iacm molid).getD []
    else [molid]
  let elemExcluded :=
    if dmem repo.iso_elem molid then (dget repo.iso_elem molid).getD []
    else [molid]
  { charges_iacm :=
      repo.charges_iacm.map (fun p => (p.1, ⟨p.2, iacmExcluded⟩)),
    charges_elem :=
      repo.charges_elem.map (fun p => (p.1, ⟨p.2, elemExcluded⟩)) }
/-- Claim-side recursion: the charges of a traceable bucket with every
entry from an excluded molecule id removed, in order. -/
def chargesWithoutBlocked (tcs : TBucket) (blocked : List Nat) : List ℚ :=
  match tcs with
  | [] => []
  | (c, mid, _) :: rest =>
      if mid ∈ blocked then chargesWithoutBlocked rest blocked
      else c :: chargesWithoutBlocked rest blocked
/-! ## Properties and claim theorems -/

theorem dget_dset_self {K V : Type} [DecidableEq K] (d : List (K × V)) (k : K) (v : V) :
    dget (dset d k v) k = some v := by
  induction d with
  | nil => simp [dset, dget]
  | cons p d ih =>
      obtain ⟨k', v'⟩ := p
      by_cases h : k = k' <;> simp [dset, dget, h, ih]
theorem dget_dset_ne {K V : Type} [DecidableEq K] (d : List (K × V)) (k k' : K) (v : V) (h : k' ≠ k) :
    dget (dset d k v) k' = dget d k' := by
  induction d with
  | nil => simp [dset, dget, h]
  | cons p d ih =>
      obtain ⟨k0, v0⟩ := p
      by_cases hk : k = k0
      · subst hk
        simp [dset, dget, h]
      · by_cases hk' : k' = k0 <;> simp [dset, dget, hk, hk', ih]
theorem dget_derase_ne {K V : Type} [DecidableEq K] (d : List (K × V)) (k k' : K) (h : k' ≠ k) :
    dget (derase d k) k' = dget d k' := by
  induction d with
  | nil => simp [derase]
  | cons p d ih =>
      obtain ⟨k0, v0⟩ := p
      by_cases hk : k = k0
      · subst hk
        simp [derase, dget, h]
      · by_cases hk' : k' = k0 <;> simp [derase, dget, hk, hk', ih]
theorem dget_eq_none_of_not_mem_keys {K V : Type} [DecidableEq K] (d : List (K × V)) (k : K)
    (h : k ∉ dkeys d) : dget d k = none := by
  induction d with
  | nil => rfl
  | cons p d ih =>
      obtain ⟨k0, v0⟩ := p
      simp only [dkeys, List.map_cons, List.mem_cons] at h
      push_neg at h
      simp [dget, h.1, ih (by simpa [dkeys] using h.2)]
theorem dget_derase_self {K V : Type} [DecidableEq K] (d : List (K × V)) (k : K) (hnd : (dkeys d).Nodup) :
    dget (derase d k) k = none := by
  induction d with
  | nil => rfl
  | cons p d ih =>
      obtain ⟨k0, v0⟩ := p
      have hcons : dkeys ((k0, v0) :: d) = k0 :: dkeys d := rfl
      rw [hcons] at hnd
      by_cases hk : k = k0
      · subst hk
        simp only [derase, if_pos rfl]
        exact dget_eq_none_of_not_mem_keys d k (List.nodup_cons.mp hnd).1
      · simp only [derase, if_neg hk, dget, if_neg hk]
        exact ih (List.nodup_cons.mp hnd).2
theorem dkeys_dset {K V : Type} [DecidableEq K] (d : List (K × V)) (k : K) (v : V) :
    dkeys (dset d k v) = if k ∈ dkeys d then dkeys d else dkeys d ++ [k] := by
  induction d with
  | nil => simp [dset, dkeys]
  | cons p d ih =>
      obtain ⟨k0, v0⟩ := p
      by_cases hk : k = k0
      · subst hk
        simp [dset, dkeys]
      · have h2 : dset ((k0, v0) :: d) k v = (k0, v0) :: dset d k v := by
          simp [dset, hk]
        rw [h2]
        have h3 : dkeys ((k0, v0) :: dset d k v) = k0 :: dkeys (dset d k v) := rfl
        have h1 : dkeys ((k0, v0) :: d) = k0 :: dkeys d := rfl
        rw [h3, h1, ih]
        by_cases hm : k ∈ dkeys d
        · simp [hm, hk]
        · simp [hm, hk, List.mem_cons]
theorem dkeys_dset_nodup {K V : Type} [DecidableEq K] (d : List (K × V)) (k : K) (v : V)
    (h : (dkeys d).Nodup) : (dkeys (dset d k v)).Nodup := by
  rw [dkeys_dset]
  by_cases hm : k ∈ dkeys d
  · simpa [hm] using h
  · simp only [if_neg hm]
    simpa [List.nodup_append, hm] using h
theorem dkeys_derase_sublist {K V : Type} [DecidableEq K] (d : List (K × V)) (k : K) :
    (dkeys (derase d k)).Sublist (dkeys d) := by
  induction d with
  | nil => simp [derase]
  | cons p d ih =>
      obtain ⟨k0, v0⟩ := p
      by_cases hk : k = k0
      · simp only [derase, if_pos hk, dkeys, List.map_cons]
        exact List.sublist_cons_self _ _
      · simp only [derase, if_neg hk, dkeys, List.map_cons]
        exact ih.cons₂ k0
theorem dkeys_derase_nodup {K V : Type} [DecidableEq K] (d : List (K × V)) (k : K)
    (h : (dkeys d).Nodup) : (dkeys (derase d k)).Nodup :=
  (dkeys_derase_sublist d k).nodup h
theorem dmem_of_dget_eq_some {K V : Type} [DecidableEq K]
    {d : List (K × V)} {k : K} {v : V}
    (h : dget d k = some v) : k ∈ dkeys d := by
  induction d with
  | nil => simp [dget] at h
  | cons p d ih =>
      obtain ⟨k0, v0⟩ := p
      by_cases hk : k = k0
      · simp [dkeys, hk]
      · simp only [dget, if_neg hk] at h
        have hm : k ∈ dkeys d := ih h
        simp only [dkeys, List.map_cons, List.mem_cons]
        exact Or.inr hm
/-- Lower part: an index below the count of elements `< x` holds an element `< x`. -/
theorem sorted_lt_of_lt_countP (a : List ℚ) (x : ℚ)
    (hs : a.Sorted (· ≤ ·)) (i : Nat) (hi : i < a.length)
    (hcnt : i < a.countP (fun y => decide (y < x))) :
    a.get ⟨i, hi⟩ < x := by
  induction a generalizing i with
  | nil => simp at hi
  | cons b t ih =>
      have hst : t.Sorted (· ≤ ·) := hs.of_cons
      by_cases hb : b < x
      · cases i with
        | zero => simpa using hb
        | succ j =>
            rw [List.countP_cons_of_pos _ _ (by simpa using hb)] at hcnt
            have hj : j < t.countP (fun y => decide (y < x)) := by omega
            simpa using ih hst j (by simpa using hi) hj
      · have hzero : (b :: t).countP (fun y => decide (y < x)) = 0 := by
          rw [List.countP_eq_zero]
          intro y hy
          rcases List.mem_cons.mp hy with h | h
          · simp [h, hb]
          · have : b ≤ y := (List.rel_of_sorted_cons hs) y h
            simp [not_lt_of_ge (le_trans (not_lt.mp hb) this)]
        omega
/-- Upper part: an element `< x` sits at an index below the count of elements `< x`. -/
theorem sorted_countP_gt_of_lt (a : List ℚ) (x : ℚ)
    (hs : a.Sorted (· ≤ ·)) (i : Nat) (hi : i < a.length)
    (hlt : a.get ⟨i, hi⟩ < x) :
    i < a.countP (fun y => decide (y < x)) := by
  induction a generalizing i with
  | nil => simp at hi
  | cons b t ih =>
      have hst : t.Sorted (· ≤ ·) := hs.of_cons
      by_cases hb : b < x
      · rw [List.countP_cons_of_pos _ _ (by simpa using hb)]
        cases i with
        | zero => omega
        | succ j =>
            have := ih hst j (by simpa using hi) (by simpa using hlt)
            omega
      · exfalso
        cases i with
        | zero => exact hb (by simpa using hlt)
        | succ j =>
            have hmem : t.get ⟨j, by simpa using hi⟩ ∈ t := List.get_mem _ _ _
            have : b ≤ t.get ⟨j, by simpa using hi⟩ :=
              (List.rel_of_sorted_cons hs) _ hmem
            exact hb (lt_of_le_of_lt this (by simpa using hlt))
theorem bisectLeftAux_eq_countP (a : List ℚ) (x : ℚ)
    (hs : a.Sorted (· ≤ ·)) (lo hi : Nat)
    (hlo : lo ≤ a.countP (fun y => decide (y < x)))
    (hhi : a.countP (fun y => decide (y < x)) ≤ hi)
    (hlen : hi ≤ a.length) :
    bisectLeftAux a x lo hi = a.countP (fun y => decide (y < x)) := by
  by_cases h : lo < hi
  · rw [bisectLeftAux, dif_pos h]
    have hmidlt : (lo + hi) / 2 < a.length := by omega
    have hgetD : a.getD ((lo + hi) / 2) 0 = a.get ⟨(lo + hi) / 2, hmidlt⟩ := by
      simp [List.getD_eq_getElem?_getD, List.getElem?_eq_getElem hmidlt]
    by_cases hcmp : a.getD ((lo + hi) / 2) 0 < x
    · rw [if_pos hcmp]
      have : (lo + hi) / 2 < a.countP (fun y => decide (y < x)) := by
        apply sorted_countP_gt_of_lt a x hs _ hmidlt
        rw [← hgetD]; exact hcmp
      exact bisectLeftAux_eq_countP a x hs _ _ (by omega) hhi (by omega)
    · rw [if_neg hcmp]
      have : a.countP (fun y => decide (y < x)) ≤ (lo + hi) / 2 := by
        by_contra hcon
        push_neg at hcon
        have := sorted_lt_of_lt_countP a x hs _ hmidlt hcon
        rw [← hgetD] at this
        exact hcmp this
      exact bisectLeftAux_eq_countP a x hs _ _ hlo (by omega) (by omega)
  · rw [bisectLeftAux, dif_neg h]
    omega
termination_by hi - lo
decreasing_by
  · omega
  · omega
/-- On a sorted list, `bisect_left` returns the number of elements below `x`. -/
theorem bisectLeft_eq_countP (a : List ℚ) (x : ℚ) (hs : a.Sorted (· ≤ ·)) :
    bisectLeft a x = a.countP (fun y => decide (y < x)) :=
  bisectLeftAux_eq_countP a x hs 0 a.length (Nat.zero_le _)
    (List.countP_le_length _) le_rfl
theorem sorted_countP_lt_eq_zero (b : ℚ) (t : List ℚ) (x : ℚ)
    (hs : (b :: t).Sorted (· ≤ ·)) (hb : ¬b < x) :
    (b :: t).countP (fun y => decide (y < x)) = 0 := by
  rw [List.countP_eq_zero]
  intro y hy
  rcases List.mem_cons.mp hy with h | h
  · simp [h, hb]
  · have : b ≤ y := (List.rel_of_sorted_cons hs) y h
    simp [not_lt_of_ge (le_trans (not_lt.mp hb) this)]
/-- On a sorted list, the `bisect`-based insertion agrees with ordered insertion. -/
theorem insortLeft_eq_orderedInsert (a : List ℚ) (x : ℚ) (hs : a.Sorted (· ≤ ·)) :
    insortLeft a x = a.orderedInsert (· ≤ ·) x := by
  unfold insortLeft
  rw [bisectLeft_eq_countP a x hs]
  induction a with
  | nil => rfl
  | cons b t ih =>
      by_cases hb : b < x
      · rw [List.countP_cons_of_pos _ _ (by simpa using hb), List.insertIdx_succ_cons,
          ih hs.of_cons]
        simp [List.orderedInsert, not_le.mpr hb]
      · rw [sorted_countP_lt_eq_zero b t x hs hb, List.insertIdx_zero]
        simp [List.orderedInsert, not_lt.mp hb]
theorem insortLeft_sorted (a : List ℚ) (x : ℚ) (hs : a.Sorted (· ≤ ·)) :
    (insortLeft a x).Sorted (· ≤ ·) := by
  rw [insortLeft_eq_orderedInsert a x hs]
  exact List.Sorted.orderedInsert x a hs
theorem insortLeft_coe (a : List ℚ) (x : ℚ) (hs : a.Sorted (· ≤ ·)) :
    (↑(insortLeft a x) : Multiset ℚ) = x ::ₘ (↑a : Multiset ℚ) := by
  rw [insortLeft_eq_orderedInsert a x hs]
  exact Multiset.coe_eq_coe.mpr (List.perm_orderedInsert _ x a)
theorem insortLeft_ne_nil (a : List ℚ) (x : ℚ) (hs : a.Sorted (· ≤ ·)) :
    insortLeft a x ≠ [] := by
  intro h
  have hc := insortLeft_coe a x hs
  rw [h] at hc
  have hcard := congrArg Multiset.card hc
  simp at hcard
/-- Index returned by `bisect_left` when the element is present in a sorted list. -/
theorem bisectLeft_lt_length_of_mem (a : List ℚ) (x : ℚ)
    (hs : a.Sorted (· ≤ ·)) (hx : x ∈ a) : bisectLeft a x < a.length := by
  rw [bisectLeft_eq_countP a x hs]
  obtain ⟨i, hi⟩ := List.get_of_mem hx
  have hge : a.countP (fun y => decide (y < x)) ≤ i.1 := by
    by_contra hcon
    push_neg at hcon
    have := sorted_lt_of_lt_countP a x hs i.1 i.2 hcon
    rw [hi] at this
    exact lt_irrefl x this
  exact lt_of_le_of_lt hge i.2
/-- The element popped by `pop(bisect_left(a, x))` is `x` itself when present. -/
theorem getElem_bisectLeft (a : List ℚ) (x : ℚ) (hs : a.Sorted (· ≤ ·)) (hx : x ∈ a)
    (hlt : bisectLeft a x < a.length) : a.get ⟨bisectLeft a x, hlt⟩ = x := by
  obtain ⟨i, hi⟩ := List.get_of_mem hx
  have hcnt : bisectLeft a x = a.countP (fun y => decide (y < x)) :=
    bisectLeft_eq_countP a x hs
  have hge : a.countP (fun y => decide (y < x)) ≤ i.1 := by
    by_contra hcon
    push_neg at hcon
    have := sorted_lt_of_lt_countP a x hs i.1 i.2 hcon
    rw [hi] at this
    exact lt_irrefl x this
  have hub : ¬ a.get ⟨bisectLeft a x, hlt⟩ < x := by
    intro hcon
    have := sorted_countP_gt_of_lt a x hs _ hlt hcon
    omega
  have hlb : a.get ⟨bisectLeft a x, hlt⟩ ≤ x := by
    rcases eq_or_lt_of_le (by omega : bisectLeft a x ≤ i.1) with h | h
    · exact le_of_eq ((congrArg a.get (Fin.ext h)).trans hi)
    · exact le_trans
        (hs.rel_get_of_le (show (⟨bisectLeft a x, hlt⟩ : Fin a.length) ≤ i from h.le))
        (le_of_eq hi)
  exact le_antisymm hlb (not_lt.mp hub)
theorem eraseIdx_bisectLeft_coe (a : List ℚ) (x : ℚ)
    (hs : a.Sorted (· ≤ ·)) (hx : x ∈ a) :
    (↑(a.eraseIdx (bisectLeft a x)) : Multiset ℚ) = (↑a : Multiset ℚ).erase x := by
  have hlt := bisectLeft_lt_length_of_mem a x hs hx
  have hget := getElem_bisectLeft a x hs hx hlt
  have hsplit : a = a.take (bisectLeft a x) ++ x :: a.drop (bisectLeft a x + 1) := by
    conv_lhs => rw [← List.take_append_drop (bisectLeft a x) a]
    congr 1
    rw [List.drop_eq_getElem_cons hlt]
    simp only [List.get_eq_getElem] at hget
    rw [hget]
  have herase : a.eraseIdx (bisectLeft a x) =
      a.take (bisectLeft a x) ++ a.drop (bisectLeft a x + 1) :=
    List.eraseIdx_eq_take_drop_succ a _
  have hperm : List.Perm a (x :: a.eraseIdx (bisectLeft a x)) := by
    conv_lhs => rw [hsplit]
    rw [herase]
    exact List.perm_middle
  have : (↑a : Multiset ℚ) = x ::ₘ ↑(a.eraseIdx (bisectLeft a x)) :=
    Multiset.coe_eq_coe.mpr hperm
  rw [this, Multiset.erase_cons_head]
theorem eraseIdx_bisectLeft_sorted (a : List ℚ) (x : ℚ) (hs : a.Sorted (· ≤ ·)) :
    (a.eraseIdx (bisectLeft a x)).Sorted (· ≤ ·) :=
  hs.sublist (List.eraseIdx_sublist a _)
theorem mem_of_dget_eq_some {K V : Type} [DecidableEq K] {d : List (K × V)} {k : K} {v : V}
    (h : dget d k = some v) : (k, v) ∈ d := by
  induction d with
  | nil => simp [dget] at h
  | cons p t ih =>
      obtain ⟨k0, v0⟩ := p
      by_cases hk : k = k0
      · subst hk
        simp only [dget, if_pos rfl] at h
        cases h
        simp
      · simp only [dget, if_neg hk] at h
        exact List.mem_cons_of_mem _ (ih h)
theorem wfStore_bucket {st : Store} (hwf : wfStore st) {shell : Nat} {key : Fp}
    {l : Bucket} (h : lookup2 st shell key = some l) :
    l ≠ [] ∧ l.Sorted (· ≤ ·) := by
  unfold lookup2 at h
  cases hd : dget st shell with
  | none => rw [hd] at h; exact absurd h (by simp)
  | some d =>
      rw [hd, Option.some_bind] at h
      exact (hwf.2 _ (mem_of_dget_eq_some hd)).2.2 _ (mem_of_dget_eq_some h)
theorem wfStore_bucket_sorted {st : Store} (hwf : wfStore st) {shell : Nat} {key : Fp}
    {l : Bucket} (h : lookup2 st shell key = some l) : l.Sorted (· ≤ ·) :=
  (wfStore_bucket hwf h).2
theorem wfStore_bucket_ne_nil {st : Store} (hwf : wfStore st) {shell : Nat} {key : Fp}
    {l : Bucket} (h : lookup2 st shell key = some l) : l ≠ [] :=
  (wfStore_bucket hwf h).1
theorem mem_dset {K V : Type} [DecidableEq K] {d : List (K × V)} {k : K} {v : V}
    {p : K × V} (h : p ∈ dset d k v) : p ∈ d ∨ p = (k, v) := by
  induction d with
  | nil =>
      simp only [dset, List.mem_singleton] at h
      exact Or.inr h
  | cons q t ih =>
      obtain ⟨k0, v0⟩ := q
      by_cases hk : k = k0
      · subst hk
        simp only [dset, if_true, eq_self_iff_true, List.mem_cons] at h
        rcases h with h1 | h1
        · exact Or.inr h1
        · exact Or.inl (List.mem_cons_of_mem _ h1)
      · simp only [dset, if_neg hk, List.mem_cons] at h
        rcases h with h1 | h1
        · exact Or.inl (by simp [h1])
        · rcases ih h1 with h2 | h2
          · exact Or.inl (List.mem_cons_of_mem _ h2)
          · exact Or.inr h2
theorem dset_ne_nil {K V : Type} [DecidableEq K] (d : List (K × V)) (k : K) (v : V) :
    dset d k v ≠ [] := by
  cases d with
  | nil => simp [dset]
  | cons q t =>
      obtain ⟨k0, v0⟩ := q
      by_cases hk : k = k0 <;> simp [dset, hk]
theorem derase_sublist {K V : Type} [DecidableEq K] (d : List (K × V)) (k : K) :
    (derase d k).Sublist d := by
  induction d with
  | nil => simp [derase]
  | cons q t ih =>
      obtain ⟨k0, v0⟩ := q
      by_cases hk : k = k0
      · simp only [derase, if_pos hk]
        exact List.sublist_cons_self _ _
      · simp only [derase, if_neg hk]
        exact ih.cons₂ _
theorem absB_some {st : Store} {shell : Nat} {key : Fp} {l : Bucket}
    (h : lookup2 st shell key = some l) : absB st shell key = ↑l := by
  unfold absB
  rw [h]
  rfl
theorem absB_none {st : Store} {shell : Nat} {key : Fp}
    (h : lookup2 st shell key = none) : absB st shell key = 0 := by
  unfold absB
  rw [h]
  rfl
theorem exists_bucket_of_mem_absB {st : Store} {shell : Nat} {key : Fp} {c : ℚ}
    (h : c ∈ absB st shell key) :
    ∃ l, lookup2 st shell key = some l ∧ c ∈ l := by
  unfold absB at h
  cases hl : lookup2 st shell key with
  | none => rw [hl] at h; simp at h
  | some l =>
      rw [hl] at h
      exact ⟨l, rfl, by simpa using h⟩
/-- The bucket `a()` inserts into: present bucket, or `[]` when shell or key is new. -/
theorem insert_site_sorted {st : Store} (hwf : wfStore st) (shell : Nat) (key : Fp) :
    ((dget ((dget st shell).getD []) key).getD [] : List ℚ).Sorted (· ≤ ·) := by
  cases hd : dget st shell with
  | none => simp [dget]
  | some d =>
      simp only [Option.getD_some]
      cases hb : dget d key with
      | none => simp [hb]
      | some l =>
          simp only [Option.getD_some]
          exact wfStore_bucket_sorted hwf
            (by unfold lookup2; rw [hd, Option.some_bind]; exact hb)
theorem insert_site_absB (st : Store) (shell : Nat) (key : Fp) :
    absB st shell key = ↑((dget ((dget st shell).getD []) key).getD [] : List ℚ) := by
  unfold absB lookup2
  cases hd : dget st shell with
  | none => simp [dget]
  | some d => simp
/-- Effect of `insertCharge` on bucket contents. -/
theorem insertCharge_absB (st : Store) (shell : Nat) (key : Fp) (c : ℚ)
    (hwf : wfStore st) (s' : Nat) (k' : Fp) :
    absB (insertCharge st shell key c) s' k' =
      if s' = shell ∧ k' = key then c ::ₘ absB st shell key else absB st s' k' := by
  unfold insertCharge
  by_cases hs : s' = shell
  · subst hs
    by_cases hk : k' = key
    · subst hk
      simp only [and_self, if_pos]
      have hl2 : lookup2 (dset st s' (dset ((dget st s').getD [])
          k' (insortLeft ((dget ((dget st s').getD []) k').getD []) c))) s' k' =
          some (insortLeft ((dget ((dget st s').getD []) k').getD []) c) := by
        unfold lookup2
        rw [dget_dset_self, Option.some_bind, dget_dset_self]
      rw [absB_some hl2, insortLeft_coe _ _ (insert_site_sorted hwf s' k'),
        insert_site_absB st s' k']
    · have hneq : ¬(s' = s' ∧ k' = key) := by simp [hk]
      rw [if_neg hneq]
      unfold absB lookup2
      rw [dget_dset_self, Option.some_bind, dget_dset_ne _ _ _ _ hk]
      cases hd : dget st s' with
      | none => simp [dget]
      | some d => simp
  · have hneq : ¬(s' = shell ∧ k' = key) := by simp [hs]
    rw [if_neg hneq]
    unfold absB lookup2
    rw [dget_dset_ne _ _ _ _ hs]
/-- Frame: `insertCharge` leaves every other shell entry untouched. -/
theorem insertCharge_dget_ne (st : Store) (shell : Nat) (key : Fp) (c : ℚ)
    (s' : Nat) (hs : s' ≠ shell) :
    dget (insertCharge st shell key c) s' = dget st s' := by
  unfold insertCharge
  exact dget_dset_ne _ _ _ _ hs
/-- Frame: `insertCharge` leaves every other bucket untouched. -/
theorem insertCharge_lookup2_ne (st : Store) (shell : Nat) (key : Fp) (c : ℚ)
    (s' : Nat) (k' : Fp) (h : ¬(s' = shell ∧ k' = key)) :
    lookup2 (insertCharge st shell key c) s' k' = lookup2 st s' k' := by
  unfold insertCharge lookup2
  by_cases hs : s' = shell
  · subst hs
    have hk : k' ≠ key := by tauto
    rw [dget_dset_self, Option.some_bind, dget_dset_ne _ _ _ _ hk]
    cases hd : dget st s' with
    | none => simp [dget]
    | some d => simp
  · rw [dget_dset_ne _ _ _ _ hs]
theorem insertCharge_wf (st : Store) (shell : Nat) (key : Fp) (c : ℚ)
    (hwf : wfStore st) : wfStore (insertCharge st shell key c) := by
  obtain ⟨hnd, hent⟩ := hwf
  unfold insertCharge
  constructor
  · exact dkeys_dset_nodup _ _ _ hnd
  · intro p hp
    rcases mem_dset hp with hp' | hp'
    · exact hent p hp'
    · subst hp'
      refine ⟨?_, dset_ne_nil _ _ _, ?_⟩
      · apply dkeys_dset_nodup
        cases hd : dget st shell with
        | none => simp [dkeys]
        | some d => exact (hent _ (mem_of_dget_eq_some hd)).1
      · intro q hq
        rcases mem_dset hq with hq' | hq'
        · cases hd : dget st shell with
          | none => rw [hd] at hq'; simp at hq'
          | some d =>
              rw [hd] at hq'
              exact (hent _ (mem_of_dget_eq_some hd)).2.2 _ hq'
        · subst hq'
          exact ⟨insortLeft_ne_nil _ _ (insert_site_sorted ⟨hnd, hent⟩ shell key),
            insortLeft_sorted _ _ (insert_site_sorted ⟨hnd, hent⟩ shell key)⟩
/-- Shell keys after `insertCharge`: only `shell` can be new. -/
theorem insertCharge_dkeys (st : Store) (shell : Nat) (key : Fp) (c : ℚ)
    (s' : Nat) (h : s' ∈ dkeys (insertCharge st shell key c)) :
    s' ∈ dkeys st ∨ s' = shell := by
  unfold insertCharge at h
  rw [dkeys_dset] at h
  by_cases hm : shell ∈ dkeys st
  · rw [if_pos hm] at h
    exact Or.inl h
  · rw [if_neg hm] at h
    rcases List.mem_append.mp h with h' | h'
    · exact Or.inl h'
    · exact Or.inr (by simpa using h')
/-- Full specification of one `s()` call of `Repository.subtract` on a
well-formed store containing the charge: the call succeeds, preserves
well-formedness, erases exactly one copy of the charge from the addressed
bucket, leaves all other buckets unchanged, and introduces no shell keys. -/
theorem removeCharge_spec (st : Store) (shell : Nat) (key : Fp) (c : ℚ)
    (hwf : wfStore st) (hc : c ∈ absB st shell key) :
    ∃ st', removeCharge st shell key c = some st' ∧ wfStore st' ∧
      (∀ s' k', absB st' s' k' =
        if s' = shell ∧ k' = key then (absB st shell key).erase c else absB st s' k') ∧
      (∀ s', s' ∈ dkeys st' → s' ∈ dkeys st) := by
  obtain ⟨l, hl2, hcl⟩ := exists_bucket_of_mem_absB hc
  have habs : absB st shell key = ↑l := absB_some hl2
  unfold lookup2 at hl2
  cases hd : dget st shell with
  | none => rw [hd] at hl2; exact absurd hl2 (by simp)
  | some d =>
  rw [hd, Option.some_bind] at hl2
  have hdmem : (shell, d) ∈ st := mem_of_dget_eq_some hd
  have hdprops := hwf.2 _ hdmem
  have hlmem : (key, l) ∈ d := mem_of_dget_eq_some hl2
  have hlprops := hdprops.2.2 _ hlmem
  have hsorted : l.Sorted (· ≤ ·) := hlprops.2
  have hidx : bisectLeft l c < l.length := bisectLeft_lt_length_of_mem l c hsorted hcl
  have hcoe : (↑(l.eraseIdx (bisectLeft l c)) : Multiset ℚ) = (↑l : Multiset ℚ).erase c :=
    eraseIdx_bisectLeft_coe l c hsorted hcl
  have hsorted' : (l.eraseIdx (bisectLeft l c)).Sorted (· ≤ ·) :=
    eraseIdx_bisectLeft_sorted l c hsorted
  have hrun : removeCharge st shell key c =
      some (if (if (l.eraseIdx (bisectLeft l c)).isEmpty then derase d key
                else dset d key (l.eraseIdx (bisectLeft l c))).isEmpty
            then derase st shell
            else dset st shell
              (if (l.eraseIdx (bisectLeft l c)).isEmpty then derase d key
               else dset d key (l.eraseIdx (bisectLeft l c)))) := by
    unfold removeCharge
    rw [hd]
    simp only [hl2]
    rw [if_pos hidx]
  set l' := l.eraseIdx (bisectLeft l c) with hl'
  by_cases hle : l'.isEmpty
  · have hlnil : l' = [] := List.isEmpty_iff.mp hle
    have herased : (↑l : Multiset ℚ).erase c = 0 := by
      rw [← hcoe, hlnil]
      rfl
    by_cases hde : (derase d key).isEmpty
    · have hdnil : derase d key = [] := List.isEmpty_iff.mp hde
      refine ⟨derase st shell, ?_, ?_, ?_, ?_⟩
      · rw [hrun, if_pos hle, if_pos hde]
      · exact ⟨dkeys_derase_nodup _ _ hwf.1,
          fun p hp => hwf.2 p ((derase_sublist st shell).subset hp)⟩
      · intro s' k'
        by_cases hs : s' = shell
        · subst hs
          have hnone : dget (derase st s') s' = none := dget_derase_self st s' hwf.1
          have hz : absB (derase st s') s' k' = 0 := by
            unfold absB lookup2
            rw [hnone]
            rfl
          by_cases hk : k' = key
          · subst hk
            rw [hz, if_pos ⟨rfl, rfl⟩, habs, herased]
          · rw [hz, if_neg (by simp [hk])]
            have : dget d k' = none := by
              rw [← dget_derase_ne d key k' hk, hdnil]
              rfl
            unfold absB lookup2
            rw [hd, Option.some_bind, this]
            rfl
        · rw [if_neg (by simp [hs])]
          unfold absB lookup2
          rw [dget_derase_ne st shell s' hs]
      · exact fun s' h => (dkeys_derase_sublist st shell).subset h
    · refine ⟨dset st shell (derase d key), ?_, ?_, ?_, ?_⟩
      · rw [hrun, if_pos hle, if_neg hde]
      · refine ⟨dkeys_dset_nodup _ _ _ hwf.1, ?_⟩
        intro p hp
        rcases mem_dset hp with hp' | hp'
        · exact hwf.2 p hp'
        · subst hp'
          refine ⟨dkeys_derase_nodup _ _ hdprops.1, fun h => hde (List.isEmpty_iff.mpr h), ?_⟩
          exact fun q hq => hdprops.2.2 q ((derase_sublist d key).subset hq)
      · intro s' k'
        by_cases hs : s' = shell
        · subst hs
          have hsome : dget (dset st s' (derase d key)) s' = some (derase d key) :=
            dget_dset_self st s' _
          by_cases hk : k' = key
          · subst hk
            rw [if_pos ⟨rfl, rfl⟩, habs, herased]
            unfold absB lookup2
            rw [hsome, Option.some_bind, dget_derase_self d k' hdprops.1]
            rfl
          · rw [if_neg (by simp [hk])]
            unfold absB lookup2
            rw [hsome, Option.some_bind, dget_derase_ne d key k' hk, hd, Option.some_bind]
        · rw [if_neg (by simp [hs])]
          unfold absB lookup2
          rw [dget_dset_ne st shell s' _ hs]
      · intro s' h
        rw [dkeys_dset, if_pos (dmem_of_dget_eq_some hd)] at h
        exact h
  · refine ⟨dset st shell (dset d key l'), ?_, ?_, ?_, ?_⟩
    · rw [hrun, if_neg hle, if_neg (by simpa using dset_ne_nil d key l')]
    · refine ⟨dkeys_dset_nodup _ _ _ hwf.1, ?_⟩
      intro p hp
      rcases mem_dset hp with hp' | hp'
      · exact hwf.2 p hp'
      · subst hp'
        refine ⟨dkeys_dset_nodup _ _ _ hdprops.1, dset_ne_nil _ _ _, ?_⟩
        intro q hq
        rcases mem_dset hq with hq' | hq'
        · exact hdprops.2.2 q hq'
        · subst hq'
          exact ⟨fun h => hle (List.isEmpty_iff.mpr h), hsorted'⟩
    · intro s' k'
      by_cases hs : s' = shell
      · subst hs
        have hsome : dget (dset st s' (dset d key l')) s' = some (dset d key l') :=
          dget_dset_self st s' _
        by_cases hk : k' = key
        · subst hk
          rw [if_pos ⟨rfl, rfl⟩, habs, ← hcoe]
          unfold absB lookup2
          rw [hsome, Option.some_bind, dget_dset_self]
          rfl
        · rw [if_neg (by simp [hk])]
          unfold absB lookup2
          rw [hsome, Option.some_bind, dget_dset_ne d key k' _ hk, hd, Option.some_bind]
      · rw [if_neg (by simp [hs])]
        unfold absB lookup2
        rw [dget_dset_ne st shell s' _ hs]
    · intro s' h
      rw [dkeys_dset, if_pos (dmem_of_dget_eq_some hd)] at h
      exact h
theorem exceptBind_ok {E A B : Type} (a : A) (f : A → Except E B) :
    (Except.ok a >>= f) = f a := rfl
theorem exceptBind_error {E A B : Type} (e : E) (f : A → Except E B) :
    ((Except.error e : Except E A) >>= f) = Except.error e := rfl
/-- On a fully charged molecule, the `__iterate` double loop is the fold of
the callback over the molecule's triple list. -/
theorem iterFragments_eq_foldlM (atoms : List (Nat × Option ℚ))
    (fp : Nat → Nat → Fp) (maxShell : Nat)
    (g : Store → Nat × Fp × ℚ → Except OpErr Store) (st : Store)
    (hch : chargedAtoms atoms) :
    iterFragments atoms fp maxShell (fun st1 s k c => g st1 (s, k, c)) st =
      (molTriples atoms fp maxShell).foldlM g st := by
  unfold iterFragments molTriples
  generalize List.range' 1 maxShell = ss
  induction ss generalizing st with
  | nil => rfl
  | cons s0 ss ih =>
      rw [List.flatMap_cons, List.foldlM_append, List.foldlM_cons]
      have hinner : ∀ st0 : Store,
          atoms.foldlM (fun st2 ac =>
            match ac.2 with
            | none => Except.error (OpErr.missingCharge ac.1)
            | some c => g st2 (s0, fp ac.1 s0, c)) st0 =
          (atoms.filterMap (fun ac => ac.2.map (fun c => (s0, fp ac.1 s0, c)))).foldlM
            g st0 := by
        clear ih
        induction atoms with
        | nil => intro st0; rfl
        | cons ac rest ihat =>
            intro st0
            obtain ⟨a, c?⟩ := ac
            cases c? with
            | none =>
                exact absurd rfl (hch (a, none) (List.mem_cons_self _ _))
            | some c =>
                simp only [List.foldlM_cons]
                cases hg : g st0 (s0, fp a s0, c) with
                | error e =>
                    rw [List.filterMap_cons_some
                        (a := (a, some c)) (b := (s0, fp a s0, c)) rfl,
                      List.foldlM_cons, hg, exceptBind_error, exceptBind_error]
                | ok st1 =>
                    rw [List.filterMap_cons_some
                        (a := (a, some c)) (b := (s0, fp a s0, c)) rfl,
                      List.foldlM_cons, hg, exceptBind_ok, exceptBind_ok]
                    exact ihat (fun q hq => hch q (List.mem_cons_of_mem _ hq)) st1
      rw [hinner]
      cases hres : (atoms.filterMap
          (fun ac => ac.2.map (fun c => (s0, fp ac.1 s0, c)))).foldlM g st with
      | error e => rw [exceptBind_error, exceptBind_error]
      | ok st1 =>
          rw [exceptBind_ok, exceptBind_ok]
          exact ih st1
theorem listDelta_cons (t : Nat × Fp × ℚ) (ts : List (Nat × Fp × ℚ)) (s : Nat) (k : Fp) :
    listDelta (t :: ts) s k =
      if t.1 = s ∧ t.2.1 = k then t.2.2 ::ₘ listDelta ts s k else listDelta ts s k := by
  unfold listDelta
  by_cases h : t.1 = s ∧ t.2.1 = k
  · rw [if_pos h, List.filterMap_cons_some (a := t) (b := t.2.2) (by rw [if_pos h])]
    rfl
  · rw [if_neg h, List.filterMap_cons_none (by rw [if_neg h])]
theorem listDelta_nil (s : Nat) (k : Fp) : listDelta [] s k = 0 := rfl
/-- Folding `a()` over a triple list: keeps the store well-formed, adds
exactly the triples' charges to the addressed buckets, and introduces no
shell keys beyond the triples' shells. -/
theorem foldIns_spec (ts : List (Nat × Fp × ℚ)) (st : Store) (hwf : wfStore st) :
    wfStore (foldIns st ts) ∧
    (∀ s k, absB (foldIns st ts) s k = absB st s k + listDelta ts s k) ∧
    (∀ s, s ∈ dkeys (foldIns st ts) → s ∈ dkeys st ∨ ∃ t ∈ ts, s = t.1) := by
  induction ts generalizing st with
  | nil =>
      refine ⟨hwf, ?_, ?_⟩
      · intro s k
        simp [listDelta, foldIns]
      · intro s h
        exact Or.inl (by simpa [foldIns] using h)
  | cons t ts ih =>
      obtain ⟨s0, k0, c0⟩ := t
      have hstep : foldIns st ((s0, k0, c0) :: ts) =
          foldIns (insertCharge st s0 k0 c0) ts := rfl
      have hwf1 := insertCharge_wf st s0 k0 c0 hwf
      obtain ⟨ihwf, ihabs, ihkeys⟩ := ih (insertCharge st s0 k0 c0) hwf1
      refine ⟨by rwa [hstep], ?_, ?_⟩
      · intro s k
        rw [hstep, ihabs s k, insertCharge_absB st s0 k0 c0 hwf s k,
          listDelta_cons (s0, k0, c0) ts s k]
        by_cases hsite : s = s0 ∧ k = k0
        · rw [if_pos hsite, if_pos (by exact ⟨hsite.1.symm, hsite.2.symm⟩)]
          obtain ⟨hs, hk⟩ := hsite
          subst hs
          subst hk
          rw [Multiset.cons_add]
          rw [add_comm (absB st s k) (c0 ::ₘ listDelta ts s k), Multiset.cons_add,
            add_comm (listDelta ts s k) (absB st s k)]
        · rw [if_neg hsite, if_neg (fun hc => hsite ⟨hc.1.symm, hc.2.symm⟩)]
      · intro s h
        rcases ihkeys s (by rwa [hstep] at h) with h1 | h1
        · rcases insertCharge_dkeys st s0 k0 c0 s h1 with h2 | h2
          · exact Or.inl h2
          · exact Or.inr ⟨(s0, k0, c0), List.mem_cons_self _ _, h2⟩
        · obtain ⟨t, ht, hts⟩ := h1
          exact Or.inr ⟨t, List.mem_cons_of_mem _ ht, hts⟩
/-- Folding `s()` over a triple list whose multiset of charges is contained
in the store: every `pop` succeeds, the store stays well-formed, exactly
the triples' charges are removed, and no shell keys appear. -/
theorem foldRemM_spec (ts : List (Nat × Fp × ℚ)) (st : Store) (hwf : wfStore st)
    (hle : ∀ s k, listDelta ts s k ≤ absB st s k) :
    ∃ st', ts.foldlM subStep st = .ok st' ∧ wfStore st' ∧
      (∀ s k, absB st' s k = absB st s k - listDelta ts s k) ∧
      (∀ s, s ∈ dkeys st' → s ∈ dkeys st) := by
  induction ts generalizing st with
  | nil =>
      refine ⟨st, rfl, hwf, ?_, fun s h => h⟩
      intro s k
      simp [listDelta_nil]
  | cons t ts ih =>
      obtain ⟨s0, k0, c0⟩ := t
      have hmem : c0 ∈ absB st s0 k0 := by
        have h := hle s0 k0
        rw [listDelta_cons] at h
        rw [if_pos ⟨rfl, rfl⟩] at h
        exact Multiset.mem_of_le h (Multiset.mem_cons_self _ _)
      obtain ⟨st1, hrc, hwf1, habs1, hkeys1⟩ :=
        removeCharge_spec st s0 k0 c0 hwf hmem
      have hle1 : ∀ s k, listDelta ts s k ≤ absB st1 s k := by
        intro s k
        rw [habs1 s k]
        by_cases hsite : s = s0 ∧ k = k0
        · rw [if_pos hsite]
          obtain ⟨hs, hk⟩ := hsite
          subst hs
          subst hk
          have h := hle s k
          rw [listDelta_cons, if_pos ⟨rfl, rfl⟩] at h
          rw [Multiset.le_iff_count]
          intro x
          rw [Multiset.le_iff_count] at h
          have hx := h x
          by_cases hxc : x = c0
          · subst hxc
            rw [Multiset.count_cons_self] at hx
            rw [Multiset.count_erase_self]
            omega
          · rw [Multiset.count_cons_of_ne hxc] at hx
            rw [Multiset.count_erase_of_ne hxc]
            exact hx
        · rw [if_neg hsite]
          have h := hle s k
          rw [listDelta_cons, if_neg (fun hc => hsite ⟨hc.1.symm, hc.2.symm⟩)] at h
          exact h
      obtain ⟨st', hrun, hwf', habs', hkeys'⟩ := ih st1 hwf1 hle1
      refine ⟨st', ?_, hwf', ?_, fun s h => hkeys1 s (hkeys' s h)⟩
      · rw [List.foldlM_cons]
        have hsub : subStep st (s0, k0, c0) = .ok st1 := by
          unfold subStep subCallback
          rw [hrc]
        rw [hsub, exceptBind_ok]
        exact hrun
      · intro s k
        rw [habs' s k, habs1 s k, listDelta_cons]
        by_cases hsite : s = s0 ∧ k = k0
        · rw [if_pos hsite, if_pos ⟨hsite.1.symm, hsite.2.symm⟩]
          obtain ⟨hs, hk⟩ := hsite
          subst hs
          subst hk
          rw [Multiset.sub_cons]
        · rw [if_neg hsite, if_neg (fun hc => hsite ⟨hc.1.symm, hc.2.symm⟩)]
/-- Embeds `__iterate` with the `a()` callback is the pure insertion fold. -/
theorem iterFragments_add (atoms : List (Nat × Option ℚ)) (fp : Nat → Nat → Fp)
    (maxShell : Nat) (st : Store) (hch : chargedAtoms atoms) :
    iterFragments atoms fp maxShell addCallback st =
      .ok (foldIns st (molTriples atoms fp maxShell)) := by
  have h := iterFragments_eq_foldlM atoms fp maxShell
    (fun st1 t => addCallback st1 t.1 t.2.1 t.2.2) st hch
  have h2 : ∀ (ts : List (Nat × Fp × ℚ)) (st0 : Store),
      ts.foldlM (fun st1 t => addCallback st1 t.1 t.2.1 t.2.2) st0 =
        .ok (foldIns st0 ts) := by
    intro ts
    induction ts with
    | nil => intro st0; rfl
    | cons t ts ih =>
        intro st0
        rw [List.foldlM_cons]
        have : addCallback st0 t.1 t.2.1 t.2.2 =
            .ok (insertCharge st0 t.1 t.2.1 t.2.2) := rfl
        rw [this, exceptBind_ok]
        exact ih _
  exact h.trans (h2 _ st)
/-- Embeds `__iterate` with the `s()` callback is the removal fold. -/
theorem iterFragments_sub (atoms : List (Nat × Option ℚ)) (fp : Nat → Nat → Fp)
    (maxShell : Nat) (st : Store) (hch : chargedAtoms atoms) :
    iterFragments atoms fp maxShell subCallback st =
      (molTriples atoms fp maxShell).foldlM subStep st :=
  iterFragments_eq_foldlM atoms fp maxShell subStep st hch
/-- Both molid sets of `__iterate` are just the singleton `{molid}`. -/
theorem iterIds_eq (molid : Nat) (isoI isoE : Iso) :
    iterIds molid isoI isoE = ([molid], [molid]) := rfl
/-- Embeds `Repository.add` on a molecule whose atoms all carry charges: succeeds
and replaces each typed store by the insertion fold of that single
molecule's triples. -/
theorem Repository.add_spec (r : Repository) (files : Nat → MolIn) (molid : Nat)
    (isoI isoE : Iso) (hIi : r.isoIacm = some isoI) (hIe : r.isoElem = some isoE)
    (hch : chargedAtoms (files molid).atoms) :
    Repository.add r files molid = .ok
      { r with
        chargesIacm := foldIns r.chargesIacm
          (molTriples (files molid).atoms (files molid).fpIacm r.maxShell),
        chargesElem := foldIns r.chargesElem
          (molTriples (files molid).atoms (files molid).fpElem r.maxShell) } := by
  unfold Repository.add
  rw [hIi, hIe]
  simp only [iterIds_eq, List.foldlM_cons, List.foldlM_nil]
  rw [iterFragments_add _ _ _ _ hch, iterFragments_add _ _ _ _ hch]
  rfl
/-- Embeds `Repository.subtract` on a fully-charged molecule whose triples are
contained in the stores: every `pop` succeeds and exactly the molecule's
charges are removed from each typed store. -/
theorem Repository.subtract_spec (r : Repository) (files : Nat → MolIn) (molid : Nat)
    (isoI isoE : Iso) (hIi : r.isoIacm = some isoI) (hIe : r.isoElem = some isoE)
    (hwfI : wfStore r.chargesIacm) (hwfE : wfStore r.chargesElem)
    (hch : chargedAtoms (files molid).atoms)
    (hleI : ∀ s k, listDelta (molTriples (files molid).atoms (files molid).fpIacm
      r.maxShell) s k ≤ absB r.chargesIacm s k)
    (hleE : ∀ s k, listDelta (molTriples (files molid).atoms (files molid).fpElem
      r.maxShell) s k ≤ absB r.chargesElem s k) :
    ∃ cI cE, Repository.subtract r files molid = .ok
        { r with chargesIacm := cI, chargesElem := cE } ∧
      wfStore cI ∧ wfStore cE ∧
      (∀ s k, absB cI s k = absB r.chargesIacm s k -
        listDelta (molTriples (files molid).atoms (files molid).fpIacm r.maxShell) s k) ∧
      (∀ s k, absB cE s k = absB r.chargesElem s k -
        listDelta (molTriples (files molid).atoms (files molid).fpElem r.maxShell) s k) ∧
      (∀ s, s ∈ dkeys cI → s ∈ dkeys r.chargesIacm) ∧
      (∀ s, s ∈ dkeys cE → s ∈ dkeys r.chargesElem) := by
  obtain ⟨cI, hrunI, hwfI', habsI, hkeysI⟩ :=
    foldRemM_spec (molTriples (files molid).atoms (files molid).fpIacm r.maxShell)
      r.chargesIacm hwfI hleI
  obtain ⟨cE, hrunE, hwfE', habsE, hkeysE⟩ :=
    foldRemM_spec (molTriples (files molid).atoms (files molid).fpElem r.maxShell)
      r.chargesElem hwfE hleE
  refine ⟨cI, cE, ?_, hwfI', hwfE', habsI, habsE, hkeysI, hkeysE⟩
  unfold Repository.subtract
  rw [hIi, hIe]
  simp only [iterIds_eq, List.foldlM_cons, List.foldlM_nil]
  rw [iterFragments_sub _ _ _ _ hch, hrunI, iterFragments_sub _ _ _ _ hch, hrunE]
  rfl
theorem dget_head {K V : Type} [DecidableEq K] (k : K) (v : V) (d : List (K × V)) :
    dget ((k, v) :: d) k = some v := by
  simp [dget]
/-- Two well-formed stores with the same bucket multisets everywhere are
equal as Python dicts: sorted lists with equal multisets coincide, and
pruning means a shell key exists iff some bucket under it is non-empty. -/
theorem storeExtEq_of_absB (st1 st2 : Store) (h1 : wfStore st1) (h2 : wfStore st2)
    (h : ∀ s k, absB st1 s k = absB st2 s k) : storeExtEq st1 st2 := by
  have hbucket : ∀ s k, lookup2 st1 s k = lookup2 st2 s k := by
    intro s k
    have habs := h s k
    cases hl1 : lookup2 st1 s k with
    | none =>
        cases hl2 : lookup2 st2 s k with
        | none => rfl
        | some l2 =>
            rw [absB_none hl1, absB_some hl2] at habs
            have : l2 = [] := (Multiset.coe_eq_zero l2).mp habs.symm
            exact absurd this (wfStore_bucket_ne_nil h2 hl2)
    | some l1 =>
        cases hl2 : lookup2 st2 s k with
        | none =>
            rw [absB_some hl1, absB_none hl2] at habs
            have : l1 = [] := (Multiset.coe_eq_zero l1).mp habs
            exact absurd this (wfStore_bucket_ne_nil h1 hl1)
        | some l2 =>
            rw [absB_some hl1, absB_some hl2] at habs
            have hperm := Multiset.coe_eq_coe.mp habs
            rw [List.eq_of_perm_of_sorted hperm
              (wfStore_bucket_sorted h1 hl1) (wfStore_bucket_sorted h2 hl2)]
  refine ⟨?_, hbucket⟩
  have hdir : ∀ (u1 u2 : Store), wfStore u1 → wfStore u2 →
      (∀ s k, lookup2 u1 s k = lookup2 u2 s k) →
      ∀ s, (dget u1 s).isSome = true → (dget u2 s).isSome = true := by
    intro u1 u2 hu1 hu2 heq s hs
    cases hd : dget u1 s with
    | none => rw [hd] at hs; simp at hs
    | some d =>
        have hprops := hu1.2 _ (mem_of_dget_eq_some hd)
        cases hdnil : d with
        | nil => exact absurd hdnil hprops.2.1
        | cons q rest =>
            obtain ⟨k0, l0⟩ := q
            have hq : lookup2 u1 s k0 = some l0 := by
              unfold lookup2
              rw [hd, Option.some_bind, hdnil, dget_head]
            have hq2 : lookup2 u2 s k0 = some l0 := (heq s k0) ▸ hq
            unfold lookup2 at hq2
            cases hd2 : dget u2 s with
            | none => rw [hd2] at hq2; exact absurd hq2 (by simp)
            | some d2 => simp
  intro s
  cases hs1 : (dget st1 s).isSome with
  | true => exact (hdir st1 st2 h1 h2 hbucket s hs1).symm
  | false =>
      cases hs2 : (dget st2 s).isSome with
      | true =>
          have := hdir st2 st1 h2 h1 (fun s k => (hbucket s k).symm) s hs2
          rw [hs1] at this
          exact absurd this (by simp)
      | false => rfl
/-- C2: For every repository R (well-formed stores, isomorphism indices
present) and every molecule M whose atoms all carry partial charges —
in particular any M not currently contributing observations to R —
subtracting M immediately after adding M restores R: both typed stores are
equal bucket-for-bucket (Python `==`), and all other fields are unchanged.
The proof needs no non-contribution hypothesis: insertion followed by
removal of the same charge multiset restores every sorted bucket exactly. -/
theorem c2_subtract_add_restores (r : Repository) (files : Nat → MolIn) (molid : Nat)
    (isoI isoE : Iso) (hIi : r.isoIacm = some isoI) (hIe : r.isoElem = some isoE)
    (hwfI : wfStore r.chargesIacm) (hwfE : wfStore r.chargesElem)
    (hch : chargedAtoms (files molid).atoms) :
    ∃ r1 r2, Repository.add r files molid = .ok r1 ∧
      Repository.subtract r1 files molid = .ok r2 ∧
      storeExtEq r2.chargesIacm r.chargesIacm ∧
      storeExtEq r2.chargesElem r.chargesElem ∧
      r2.minShell = r.minShell ∧ r2.maxShell = r.maxShell ∧
      r2.isoIacm = r.isoIacm ∧ r2.isoElem = r.isoElem := by
  have hadd := Repository.add_spec r files molid isoI isoE hIi hIe hch
  set tsI := molTriples (files molid).atoms (files molid).fpIacm r.maxShell with htsI
  set tsE := molTriples (files molid).atoms (files molid).fpElem r.maxShell with htsE
  set r1 : Repository :=
    { r with chargesIacm := foldIns r.chargesIacm tsI,
             chargesElem := foldIns r.chargesElem tsE } with hr1
  obtain ⟨hwfI1, habsI1, _⟩ := foldIns_spec tsI r.chargesIacm hwfI
  obtain ⟨hwfE1, habsE1, _⟩ := foldIns_spec tsE r.chargesElem hwfE
  have hleI : ∀ s k, listDelta tsI s k ≤ absB r1.chargesIacm s k := by
    intro s k
    rw [hr1]
    simp only []
    rw [habsI1 s k]
    exact le_add_self
  have hleE : ∀ s k, listDelta tsE s k ≤ absB r1.chargesElem s k := by
    intro s k
    rw [hr1]
    simp only []
    rw [habsE1 s k]
    exact le_add_self
  have hsub := Repository.subtract_spec r1 files molid isoI isoE hIi hIe
    hwfI1 hwfE1 hch hleI hleE
  obtain ⟨cI, cE, hrun2, hwfI2, hwfE2, habsI2, habsE2, _, _⟩ := hsub
  refine ⟨r1, { r1 with chargesIacm := cI, chargesElem := cE }, hadd, hrun2,
    ?_, ?_, rfl, rfl, rfl, rfl⟩
  · apply storeExtEq_of_absB _ _ hwfI2 hwfI
    intro s k
    rw [habsI2 s k, habsI1 s k, add_tsub_cancel_right]
  · apply storeExtEq_of_absB _ _ hwfE2 hwfE
    intro s k
    rw [habsE2 s k, habsE1 s k, add_tsub_cancel_right]
/-- Witness for C2 at a concrete repository and molecule. -/
theorem c2_subtract_add_restores_witness :
    ∃ r1 r2,
      Repository.add
        { minShell := 1, maxShell := 2, chargesIacm := [(1, [("b", [0])])],
          chargesElem := [], isoIacm := some [], isoElem := some [] }
        (fun _ => ⟨[(0, some 1), (1, some (-1/2))], fun _ _ => "k", fun _ _ => "e"⟩)
        7 = .ok r1 ∧
      Repository.subtract r1
        (fun _ => ⟨[(0, some 1), (1, some (-1/2))], fun _ _ => "k", fun _ _ => "e"⟩)
        7 = .ok r2 ∧
      storeExtEq r2.chargesIacm [(1, [("b", [0])])] ∧
      storeExtEq r2.chargesElem [] ∧
      r2.minShell = 1 ∧ r2.maxShell = 2 ∧
      r2.isoIacm = some [] ∧ r2.isoElem = some [] :=
  c2_subtract_add_restores
    { minShell := 1, maxShell := 2, chargesIacm := [(1, [("b", [0])])],
      chargesElem := [], isoIacm := some [], isoElem := some [] }
    (fun _ => ⟨[(0, some 1), (1, some (-1/2))], fun _ _ => "k", fun _ _ => "e"⟩)
    7 [] [] rfl rfl
    (by
      refine ⟨by simp [dkeys], ?_⟩
      intro p hp
      simp only [List.mem_singleton] at hp
      subst hp
      refine ⟨by simp [dkeys], by simp, ?_⟩
      intro q hq
      simp only [List.mem_singleton] at hq
      subst hq
      exact ⟨by simp, by simp⟩)
    (by exact ⟨by simp [dkeys], by simp⟩)
    (by
      intro ac hac
      rcases List.mem_cons.mp hac with h | h
      · rw [h]; simp
      · simp only [List.mem_singleton] at h
        rw [h]; simp)
theorem molTriples_shell_bounds (atoms : List (Nat × Option ℚ))
    (fp : Nat → Nat → Fp) (maxShell : Nat) (t : Nat × Fp × ℚ)
    (ht : t ∈ molTriples atoms fp maxShell) : 1 ≤ t.1 ∧ t.1 ≤ maxShell := by
  unfold molTriples at ht
  rw [List.mem_flatMap] at ht
  obtain ⟨s, hs, hmem⟩ := ht
  rw [List.mem_range'_1] at hs
  have : t.1 = s := by
    rcases List.mem_filterMap.mp hmem with ⟨ac, _, hac⟩
    cases hc : ac.2 with
    | none => rw [hc] at hac; simp at hac
    | some c =>
        rw [hc] at hac
        simp only [Option.map_some'] at hac
        cases hac
        rfl
  omega
theorem listDelta_ne_zero_shell (ts : List (Nat × Fp × ℚ)) (s : Nat) (k : Fp)
    (h : listDelta ts s k ≠ 0) : ∃ t ∈ ts, t.1 = s := by
  induction ts with
  | nil => exact absurd rfl h
  | cons t ts ih =>
      rw [listDelta_cons] at h
      by_cases hc : t.1 = s ∧ t.2.1 = k
      · exact ⟨t, List.mem_cons_self _ _, hc.1⟩
      · rw [if_neg hc] at h
        obtain ⟨t', ht', hts'⟩ := ih h
        exact ⟨t', List.mem_cons_of_mem _ ht', hts'⟩
/-- Master invariant: running a valid call sequence from a repository whose
buckets hold exactly the contributions of the currently-added molecules
succeeds and reestablishes that correspondence, keeps both stores
well-formed, preserves all other fields, and only ever introduces shell
keys in `[1, maxShell]`. -/
theorem runTrace_invariant (files : Nat → MolIn)
    (hch : ∀ m, chargedAtoms (files m).atoms) :
    ∀ {c : Multiset Nat} {ops : List Op} {c' : Multiset Nat}, ValidTrace c ops c' →
    ∀ r : Repository, ∀ isoI isoE : Iso,
      r.isoIacm = some isoI → r.isoElem = some isoE →
      wfStore r.chargesIacm → wfStore r.chargesElem →
      (∀ s k, absB r.chargesIacm s k = expectedI files r.maxShell c s k) →
      (∀ s k, absB r.chargesElem s k = expectedE files r.maxShell c s k) →
      ∃ r2, runTrace files r ops = .ok r2 ∧
        r2.minShell = r.minShell ∧ r2.maxShell = r.maxShell ∧
        r2.isoIacm = r.isoIacm ∧ r2.isoElem = r.isoElem ∧
        wfStore r2.chargesIacm ∧ wfStore r2.chargesElem ∧
        (∀ s k, absB r2.chargesIacm s k = expectedI files r.maxShell c' s k) ∧
        (∀ s k, absB r2.chargesElem s k = expectedE files r.maxShell c' s k) ∧
        (∀ s, s ∈ dkeys r2.chargesIacm →
          s ∈ dkeys r.chargesIacm ∨ (1 ≤ s ∧ s ≤ r.maxShell)) ∧
        (∀ s, s ∈ dkeys r2.chargesElem →
          s ∈ dkeys r.chargesElem ∨ (1 ≤ s ∧ s ≤ r.maxShell)) := by
  intro c ops c' hvt
  induction hvt with
  | nil c =>
      intro r isoI isoE hIi hIe hwfI hwfE habsI habsE
      exact ⟨r, rfl, rfl, rfl, rfl, rfl, hwfI, hwfE, habsI, habsE,
        fun s h => Or.inl h, fun s h => Or.inl h⟩
  | add c0 cFin m ops0 h ih =>
      intro r isoI isoE hIi hIe hwfI hwfE habsI habsE
      set tsI := molTriples (files m).atoms (files m).fpIacm r.maxShell with htsI
      set tsE := molTriples (files m).atoms (files m).fpElem r.maxShell with htsE
      have hadd := Repository.add_spec r files m isoI isoE hIi hIe (hch m)
      obtain ⟨hwfI1, habsI1, hkeysI1⟩ := foldIns_spec tsI r.chargesIacm hwfI
      obtain ⟨hwfE1, habsE1, hkeysE1⟩ := foldIns_spec tsE r.chargesElem hwfE
      set r1 : Repository :=
        { r with chargesIacm := foldIns r.chargesIacm tsI,
                 chargesElem := foldIns r.chargesElem tsE } with hr1
      have habsI1' : ∀ s k,
          absB r1.chargesIacm s k = expectedI files r1.maxShell (m ::ₘ c0) s k := by
        intro s k
        have : expectedI files r.maxShell (m ::ₘ c0) s k =
            molDeltaI files r.maxShell m s k + expectedI files r.maxShell c0 s k := by
          unfold expectedI
          rw [Multiset.map_cons, Multiset.sum_cons]
        rw [hr1]
        simp only []
        rw [habsI1 s k, habsI s k]
        rw [this, add_comm]
        rfl
      have habsE1' : ∀ s k,
          absB r1.chargesElem s k = expectedE files r1.maxShell (m ::ₘ c0) s k := by
        intro s k
        have : expectedE files r.maxShell (m ::ₘ c0) s k =
            molDeltaE files r.maxShell m s k + expectedE files r.maxShell c0 s k := by
          unfold expectedE
          rw [Multiset.map_cons, Multiset.sum_cons]
        rw [hr1]
        simp only []
        rw [habsE1 s k, habsE s k]
        rw [this, add_comm]
        rfl
      obtain ⟨r2, hrun2, hmin2, hmax2, hiso2, hisoe2, hwfI2, hwfE2, habsI2, habsE2,
        hkeysI2, hkeysE2⟩ := ih r1 isoI isoE hIi hIe hwfI1 hwfE1 habsI1' habsE1'
      refine ⟨r2, ?_, hmin2, hmax2, hiso2, hisoe2, hwfI2, hwfE2, habsI2, habsE2, ?_, ?_⟩
      · rw [runTrace]
        have : applyOp files r (Op.addMol m) = .ok r1 := hadd
        rw [this, exceptBind_ok]
        exact hrun2
      · intro s hs
        rcases hkeysI2 s hs with h1 | h1
        · rcases hkeysI1 s h1 with h2 | h2
          · exact Or.inl h2
          · obtain ⟨t, ht, hts⟩ := h2
            have := molTriples_shell_bounds _ _ _ t ht
            exact Or.inr (by omega)
        · exact Or.inr h1
      · intro s hs
        rcases hkeysE2 s hs with h1 | h1
        · rcases hkeysE1 s h1 with h2 | h2
          · exact Or.inl h2
          · obtain ⟨t, ht, hts⟩ := h2
            have := molTriples_shell_bounds _ _ _ t ht
            exact Or.inr (by omega)
        · exact Or.inr h1
  | sub c0 cFin m ops0 hm h ih =>
      intro r isoI isoE hIi hIe hwfI hwfE habsI habsE
      have hsplitI : ∀ s k, expectedI files r.maxShell c0 s k =
          molDeltaI files r.maxShell m s k + expectedI files r.maxShell (c0.erase m) s k := by
        intro s k
        unfold expectedI
        conv_lhs => rw [← Multiset.cons_erase hm]
        rw [Multiset.map_cons, Multiset.sum_cons]
      have hsplitE : ∀ s k, expectedE files r.maxShell c0 s k =
          molDeltaE files r.maxShell m s k + expectedE files r.maxShell (c0.erase m) s k := by
        intro s k
        unfold expectedE
        conv_lhs => rw [← Multiset.cons_erase hm]
        rw [Multiset.map_cons, Multiset.sum_cons]
      have hleI : ∀ s k, listDelta (molTriples (files m).atoms (files m).fpIacm
          r.maxShell) s k ≤ absB r.chargesIacm s k := by
        intro s k
        rw [habsI s k, hsplitI s k]
        exact self_le_add_right _ _
      have hleE : ∀ s k, listDelta (molTriples (files m).atoms (files m).fpElem
          r.maxShell) s k ≤ absB r.chargesElem s k := by
        intro s k
        rw [habsE s k, hsplitE s k]
        exact self_le_add_right _ _
      obtain ⟨cI, cE, hsubrun, hwfI1, hwfE1, habsI1, habsE1, hkeysI1, hkeysE1⟩ :=
        Repository.subtract_spec r files m isoI isoE hIi hIe hwfI hwfE (hch m) hleI hleE
      set r1 : Repository := { r with chargesIacm := cI, chargesElem := cE } with hr1
      have habsI1' : ∀ s k,
          absB r1.chargesIacm s k = expectedI files r1.maxShell (c0.erase m) s k := by
        intro s k
        rw [hr1]
        simp only []
        rw [habsI1 s k, habsI s k, hsplitI s k]
        exact add_tsub_cancel_left _ _
      have habsE1' : ∀ s k,
          absB r1.chargesElem s k = expectedE files r1.maxShell (c0.erase m) s k := by
        intro s k
        rw [hr1]
        simp only []
        rw [habsE1 s k, habsE s k, hsplitE s k]
        exact add_tsub_cancel_left _ _
      obtain ⟨r2, hrun2, hmin2, hmax2, hiso2, hisoe2, hwfI2, hwfE2, habsI2, habsE2,
        hkeysI2, hkeysE2⟩ := ih r1 isoI isoE hIi hIe hwfI1 hwfE1 habsI1' habsE1'
      refine ⟨r2, ?_, hmin2, hmax2, hiso2, hisoe2, hwfI2, hwfE2, habsI2, habsE2, ?_, ?_⟩
      · rw [runTrace]
        have : applyOp files r (Op.subMol m) = .ok r1 := hsubrun
        rw [this, exceptBind_ok]
        exact hrun2
      · intro s hs
        rcases hkeysI2 s hs with h1 | h1
        · exact Or.inl (hkeysI1 s h1)
        · exact Or.inr h1
      · intro s hs
        rcases hkeysE2 s hs with h1 | h1
        · exact Or.inl (hkeysE1 s h1)
        · exact Or.inr h1
theorem absB_nil (s : Nat) (k : Fp) : absB [] s k = 0 := rfl
theorem expectedI_zero (files : Nat → MolIn) (maxS : Nat) (s : Nat) (k : Fp) :
    expectedI files maxS 0 s k = 0 := by
  simp [expectedI]
theorem expectedE_zero (files : Nat → MolIn) (maxS : Nat) (s : Nat) (k : Fp) :
    expectedE files maxS 0 s k = 0 := by
  simp [expectedE]
theorem wfStore_nil : wfStore [] := by
  refine ⟨by simp [dkeys], ?_⟩
  intro p hp
  simp at hp
/-- C3 (counterexample): the code raises on the very first `add` of any
sequence started from an empty `Repository()`: `__init__` never assigns
`self.__iso_iacm`, and `__iterate` reads it, so Python raises
`AttributeError` instead of storing the molecule's charges. -/
theorem c3_counterexample_add_on_fresh_repository_raises :
    runTrace (fun _ => ⟨[(0, some 1)], fun _ _ => "k", fun _ _ => "e"⟩)
      (Repository.init 1 1) [Op.addMol 1] = .error .isoAttrErr := rfl
/-- C3 (amended): starting from an empty repository whose isomorphism-index
attributes are initialized (as `create_from` and `read` leave them), every
valid sequence of `add`/`subtract` calls succeeds, and afterwards every
stored bucket in both typed stores is non-empty, sorted non-decreasingly,
and holds exactly the multiset of charges contributed by the
currently-added molecules at that shell and fingerprint (absent buckets
correspond to empty contribution). -/
theorem c3_bucket_invariant (files : Nat → MolIn)
    (hch : ∀ m, chargedAtoms (files m).atoms)
    (minS maxS : Nat) (ops : List Op) (cFin : Multiset Nat)
    (hvt : ValidTrace 0 ops cFin) :
    ∃ r2, runTrace files
        { minShell := minS, maxShell := maxS, chargesIacm := [],
          chargesElem := [], isoIacm := some [], isoElem := some [] } ops = .ok r2 ∧
      (∀ s k, match lookup2 r2.chargesIacm s k with
        | some l => l ≠ [] ∧ l.Sorted (· ≤ ·) ∧
            (↑l : Multiset ℚ) = expectedI files maxS cFin s k
        | none => expectedI files maxS cFin s k = 0) ∧
      (∀ s k, match lookup2 r2.chargesElem s k with
        | some l => l ≠ [] ∧ l.Sorted (· ≤ ·) ∧
            (↑l : Multiset ℚ) = expectedE files maxS cFin s k
        | none => expectedE files maxS cFin s k = 0) := by
  obtain ⟨r2, hrun, _, _, _, _, hwfI2, hwfE2, habsI2, habsE2, _, _⟩ :=
    runTrace_invariant files hch hvt
      { minShell := minS, maxShell := maxS, chargesIacm := [],
        chargesElem := [], isoIacm := some [], isoElem := some [] }
      [] [] rfl rfl wfStore_nil wfStore_nil
      (fun s k => by rw [absB_nil, expectedI_zero])
      (fun s k => by rw [absB_nil, expectedE_zero])
  refine ⟨r2, hrun, ?_, ?_⟩
  · intro s k
    cases hl : lookup2 r2.chargesIacm s k with
    | none =>
        have := habsI2 s k
        rw [absB_none hl] at this
        exact this.symm
    | some l =>
        have := habsI2 s k
        rw [absB_some hl] at this
        exact ⟨wfStore_bucket_ne_nil hwfI2 hl, wfStore_bucket_sorted hwfI2 hl, this⟩
  · intro s k
    cases hl : lookup2 r2.chargesElem s k with
    | none =>
        have := habsE2 s k
        rw [absB_none hl] at this
        exact this.symm
    | some l =>
        have := habsE2 s k
        rw [absB_some hl] at this
        exact ⟨wfStore_bucket_ne_nil hwfE2 hl, wfStore_bucket_sorted hwfE2 hl, this⟩
/-- Witness for the amended C3 on the trace add 1; add 2; subtract 1. -/
theorem c3_bucket_invariant_witness :
    ∃ r2, runTrace (fun _ => ⟨[(0, some 1)], fun _ _ => "k", fun _ _ => "e"⟩)
        { minShell := 1, maxShell := 2, chargesIacm := [],
          chargesElem := [], isoIacm := some [], isoElem := some [] }
        [Op.addMol 1, Op.addMol 2, Op.subMol 1] = .ok r2 ∧
      (∀ s k, match lookup2 r2.chargesIacm s k with
        | some l => l ≠ [] ∧ l.Sorted (· ≤ ·) ∧
            (↑l : Multiset ℚ) =
              expectedI (fun _ => ⟨[(0, some 1)], fun _ _ => "k", fun _ _ => "e"⟩) 2
                ((2 ::ₘ 1 ::ₘ 0).erase 1) s k
        | none =>
            expectedI (fun _ => ⟨[(0, some 1)], fun _ _ => "k", fun _ _ => "e"⟩) 2
              ((2 ::ₘ 1 ::ₘ 0).erase 1) s k = 0) ∧
      (∀ s k, match lookup2 r2.chargesElem s k with
        | some l => l ≠ [] ∧ l.Sorted (· ≤ ·) ∧
            (↑l : Multiset ℚ) =
              expectedE (fun _ => ⟨[(0, some 1)], fun _ _ => "k", fun _ _ => "e"⟩) 2
                ((2 ::ₘ 1 ::ₘ 0).erase 1) s k
        | none =>
            expectedE (fun _ => ⟨[(0, some 1)], fun _ _ => "k", fun _ _ => "e"⟩) 2
              ((2 ::ₘ 1 ::ₘ 0).erase 1) s k = 0) :=
  c3_bucket_invariant (fun _ => ⟨[(0, some 1)], fun _ _ => "k", fun _ _ => "e"⟩)
    (fun _ ac hac => by
      simp only [List.mem_singleton] at hac
      subst hac
      simp)
    1 2 [Op.addMol 1, Op.addMol 2, Op.subMol 1] ((2 ::ₘ 1 ::ₘ 0).erase 1)
    (ValidTrace.add _ _ 1 _ (ValidTrace.add _ _ 2 _
      (ValidTrace.sub _ _ 1 _ (by decide) (ValidTrace.nil _))))
theorem bisectLeft_nil (x : ℚ) : bisectLeft [] x = 0 := by
  unfold bisectLeft
  rw [bisectLeftAux]
  simp
theorem insortLeft_nil (x : ℚ) : insortLeft [] x = [x] := by
  unfold insortLeft
  rw [bisectLeft_nil]
  rfl
/-- C6 (counterexample): `add` iterates shells `range(1, max_shell + 1)`
regardless of `min_shell`, so on a repository with `min_shell = 2` it
creates the shell key `1`, which is outside `[shellMin, shellMax]`. -/
theorem c6_counterexample_shell_key_below_min :
    Repository.add
      { minShell := 2, maxShell := 2, chargesIacm := [], chargesElem := [],
        isoIacm := some [], isoElem := some [] }
      (fun _ => ⟨[(0, some 1)], fun _ _ => "k", fun _ _ => "e"⟩) 1 =
      .ok { minShell := 2, maxShell := 2,
            chargesIacm := [(1, [("k", [1])]), (2, [("k", [1])])],
            chargesElem := [(1, [("e", [1])]), (2, [("e", [1])])],
            isoIacm := some [], isoElem := some [] } ∧
    1 ∈ dkeys ([(1, [("k", [(1 : ℚ)])]), (2, [("k", [1])])] : Store) ∧
    ¬ 2 ≤ 1 := by
  have h1 : ∀ key : Fp, insertCharge [] 1 key (1 : ℚ) = [(1, [(key, [1])])] := by
    intro key
    unfold insertCharge
    rw [show (dget ([] : Store) 1) = none from rfl]
    simp only [Option.getD_none]
    rw [show (dget ([] : ShellDict) key) = none from rfl]
    simp only [Option.getD_none]
    rw [insortLeft_nil]
    rfl
  have h2 : ∀ key : Fp, insertCharge [(1, [(key, [(1 : ℚ)])])] 2 key 1 =
      [(1, [(key, [1])]), (2, [(key, [1])])] := by
    intro key
    unfold insertCharge
    rw [show dget [(1, [(key, [(1 : ℚ)])])] 2 = none from by simp [dget]]
    simp only [Option.getD_none]
    rw [show (dget ([] : ShellDict) key) = none from rfl]
    simp only [Option.getD_none]
    rw [insortLeft_nil]
    simp [dset]
  refine ⟨?_, by simp [dkeys], by omega⟩
  rw [Repository.add_spec _ _ 1 [] [] rfl rfl (fun ac hac => by
    simp only [List.mem_singleton] at hac
    subst hac
    simp)]
  have hstI : foldIns [] (molTriples [(0, some (1 : ℚ))] (fun _ _ => "k") 2) =
      [(1, [("k", [1])]), (2, [("k", [1])])] := by
    show insertCharge (insertCharge [] 1 "k" 1) 2 "k" 1 = _
    rw [h1, h2]
  have hstE : foldIns [] (molTriples [(0, some (1 : ℚ))] (fun _ _ => "e") 2) =
      [(1, [("e", [1])]), (2, [("e", [1])])] := by
    show insertCharge (insertCharge [] 1 "e" 1) 2 "e" 1 = _
    rw [h1, h2]
  rw [hstI, hstE]
/-- C6 (amended): after any valid sequence of `add`/`subtract` calls from
an (isomorphism-index-initialized) empty repository, every shell key in
either typed store lies within `[1, shellMax]`; it lies within
`[shellMin, shellMax]` whenever `shellMin ≤ 1`. `add` processes shells in
`[1, shellMax]` regardless of `shellMin`, so for `shellMin > 1` the
data-model bound can be violated (see the counterexample). -/
theorem c6_shell_keys_in_range (files : Nat → MolIn)
    (hch : ∀ m, chargedAtoms (files m).atoms)
    (minS maxS : Nat) (ops : List Op) (cFin : Multiset Nat)
    (hvt : ValidTrace 0 ops cFin) :
    ∃ r2, runTrace files
        { minShell := minS, maxShell := maxS, chargesIacm := [],
          chargesElem := [], isoIacm := some [], isoElem := some [] } ops = .ok r2 ∧
      (∀ s, s ∈ dkeys r2.chargesIacm →
        (1 ≤ s ∧ s ≤ maxS) ∧ (minS ≤ 1 → minS ≤ s ∧ s ≤ maxS)) ∧
      (∀ s, s ∈ dkeys r2.chargesElem →
        (1 ≤ s ∧ s ≤ maxS) ∧ (minS ≤ 1 → minS ≤ s ∧ s ≤ maxS)) := by
  obtain ⟨r2, hrun, _, _, _, _, _, _, _, _, hkeysI, hkeysE⟩ :=
    runTrace_invariant files hch hvt
      { minShell := minS, maxShell := maxS, chargesIacm := [],
        chargesElem := [], isoIacm := some [], isoElem := some [] }
      [] [] rfl rfl wfStore_nil wfStore_nil
      (fun s k => by rw [absB_nil, expectedI_zero])
      (fun s k => by rw [absB_nil, expectedE_zero])
  refine ⟨r2, hrun, ?_, ?_⟩
  · intro s hs
    rcases hkeysI s hs with h | h
    · simp [dkeys] at h
    · have h' : 1 ≤ s ∧ s ≤ maxS := h
      exact ⟨h', fun hmin => by omega⟩
  · intro s hs
    rcases hkeysE s hs with h | h
    · simp [dkeys] at h
    · have h' : 1 ≤ s ∧ s ≤ maxS := h
      exact ⟨h', fun hmin => by omega⟩
/-- Witness for the amended C6 on the trace add 5. -/
theorem c6_shell_keys_in_range_witness :
    ∃ r2, runTrace (fun _ => ⟨[(0, some 1)], fun _ _ => "k", fun _ _ => "e"⟩)
        { minShell := 1, maxShell := 3, chargesIacm := [],
          chargesElem := [], isoIacm := some [], isoElem := some [] }
        [Op.addMol 5] = .ok r2 ∧
      (∀ s, s ∈ dkeys r2.chargesIacm →
        (1 ≤ s ∧ s ≤ 3) ∧ (1 ≤ 1 → 1 ≤ s ∧ s ≤ 3)) ∧
      (∀ s, s ∈ dkeys r2.chargesElem →
        (1 ≤ s ∧ s ≤ 3) ∧ (1 ≤ 1 → 1 ≤ s ∧ s ≤ 3)) :=
  c6_shell_keys_in_range (fun _ => ⟨[(0, some 1)], fun _ _ => "k", fun _ _ => "e"⟩)
    (fun _ ac hac => by
      simp only [List.mem_singleton] at hac
      subst hac
      simp)
    1 3 [Op.addMol 5] (5 ::ₘ 0)
    (ValidTrace.add _ _ 5 _ (ValidTrace.nil _))
/-- C8: when `s()` removes the last observation of a bucket it deletes the
bucket; when that bucket was the shell's last one it deletes the shell
entry; every sibling shell entry and sibling bucket is untouched. -/
theorem c8_subtract_last_observation_frame (st : Store) (shell : Nat) (key : Fp)
    (c : ℚ) (d : ShellDict) (hwf : wfStore st)
    (hd : dget st shell = some d) (hb : dget d key = some [c]) :
    ∃ st', removeCharge st shell key c = some st' ∧
      lookup2 st' shell key = none ∧
      (∀ k', k' ≠ key → lookup2 st' shell k' = lookup2 st shell k') ∧
      (∀ s', s' ≠ shell → dget st' s' = dget st s') ∧
      ((dget st' shell).isSome ↔ derase d key ≠ []) := by
  have hidx : bisectLeft [c] c = 0 := by
    rw [bisectLeft_eq_countP [c] c (List.sorted_singleton c)]
    simp
  have hrun : removeCharge st shell key c =
      some (if (derase d key).isEmpty then derase st shell
            else dset st shell (derase d key)) := by
    unfold removeCharge
    rw [hd]
    simp only [hb]
    rw [hidx]
    simp only [List.length_singleton, Nat.zero_lt_one, if_pos]
    rfl
  by_cases hde : (derase d key).isEmpty
  · have hdnil : derase d key = [] := List.isEmpty_iff.mp hde
    refine ⟨derase st shell, by rw [hrun, if_pos hde], ?_, ?_, ?_, ?_⟩
    · unfold lookup2
      rw [dget_derase_self st shell hwf.1]
      rfl
    · intro k' hk'
      unfold lookup2
      rw [dget_derase_self st shell hwf.1, hd, Option.some_bind]
      rw [← dget_derase_ne d key k' hk', hdnil]
      rfl
    · intro s' hs'
      exact dget_derase_ne st shell s' hs'
    · rw [dget_derase_self st shell hwf.1, hdnil]
      simp
  · refine ⟨dset st shell (derase d key), by rw [hrun, if_neg hde], ?_, ?_, ?_, ?_⟩
    · unfold lookup2
      rw [dget_dset_self, Option.some_bind]
      have hnd : (dkeys d).Nodup := (hwf.2 _ (mem_of_dget_eq_some hd)).1
      rw [dget_derase_self d key hnd]
    · intro k' hk'
      unfold lookup2
      rw [dget_dset_self, Option.some_bind, dget_derase_ne d key k' hk', hd,
        Option.some_bind]
    · intro s' hs'
      exact dget_dset_ne st shell s' _ hs'
    · rw [dget_dset_self]
      simp only [Option.isSome_some, true_iff]
      intro hnil
      exact hde (by rw [hnil]; rfl)
/-- Witness for C8: removing the single observation `5` at shell 1, key
"a", deletes that bucket, keeps sibling key "b" and sibling shell 2. -/
theorem c8_subtract_last_observation_frame_witness :
    ∃ st', removeCharge
        [(1, [("a", [5]), ("b", [7])]), (2, [("c", [9])])] 1 "a" 5 = some st' ∧
      lookup2 st' 1 "a" = none ∧
      (∀ k', k' ≠ "a" → lookup2 st' 1 k' =
        lookup2 [(1, [("a", [5]), ("b", [7])]), (2, [("c", [9])])] 1 k') ∧
      (∀ s', s' ≠ 1 → dget st' s' =
        dget [(1, [("a", [(5:ℚ)]), ("b", [7])]), (2, [("c", [9])])] s') ∧
      ((dget st' 1).isSome ↔ derase [("a", [(5:ℚ)]), ("b", [7])] "a" ≠ []) :=
  c8_subtract_last_observation_frame
    [(1, [("a", [5]), ("b", [7])]), (2, [("c", [9])])] 1 "a" 5
    [("a", [5]), ("b", [7])]
    (by
      refine ⟨by simp [dkeys], ?_⟩
      intro p hp
      rcases List.mem_cons.mp hp with h | h
      · subst h
        refine ⟨by simp [dkeys], by simp, ?_⟩
        intro q hq
        rcases List.mem_cons.mp hq with h1 | h1
        · subst h1
          exact ⟨by simp, by simp⟩
        · simp only [List.mem_singleton] at h1
          subst h1
          exact ⟨by simp, by simp⟩
      · simp only [List.mem_singleton] at h
        subst h
        refine ⟨by simp [dkeys], by simp, ?_⟩
        intro q hq
        simp only [List.mem_singleton] at hq
        subst hq
        exact ⟨by simp, by simp⟩)
    (by simp [dget])
    (by simp [dget])
/-- The atom loop of `_iter_atomic_fragments` under `a()` raises
`KeyError` for the first atom without `partial_charge`. -/
theorem addAtoms_missing (fp : Nat → Nat → Fp) (a : Nat) :
    ∀ atoms : List (Nat × Option ℚ),
      atoms.find? (fun ac => ac.2.isNone) = some (a, none) →
      ∀ st0 : Store,
        atoms.foldlM (fun st2 ac =>
          match ac.2 with
          | none => Except.error (OpErr.missingCharge ac.1)
          | some c => addCallback st2 1 (fp ac.1 1) c) st0 =
          .error (.missingCharge a) := by
  intro atoms
  induction atoms with
  | nil => intro h; simp at h
  | cons ac0 rest ih =>
      intro hfind st0
      obtain ⟨a0, c?⟩ := ac0
      cases c? with
      | none =>
          rw [List.find?_cons_of_pos _ (by simp)] at hfind
          simp only [Option.some.injEq, Prod.mk.injEq] at hfind
          obtain ⟨h1, -⟩ := hfind
          subst h1
          rfl
      | some c =>
          rw [List.find?_cons_of_neg _ (by simp)] at hfind
          simp only [List.foldlM_cons]
          rw [show addCallback st0 1 (fp a0 1) c =
            .ok (insertCharge st0 1 (fp a0 1) c) from rfl, exceptBind_ok]
          exact ih hfind _
/-- Embeds `Repository.add` style traversal over a molecule with a missing charge
raises identifying the first offending atom. -/
theorem iterFragments_add_missing (atoms : List (Nat × Option ℚ))
    (fp : Nat → Nat → Fp) (maxShell : Nat) (st : Store) (hmax : 1 ≤ maxShell)
    (a : Nat) (hfind : atoms.find? (fun ac => ac.2.isNone) = some (a, none)) :
    iterFragments atoms fp maxShell addCallback st = .error (.missingCharge a) := by
  unfold iterFragments
  obtain ⟨n, hn⟩ : ∃ n, maxShell = n + 1 := ⟨maxShell - 1, by omega⟩
  subst hn
  rw [List.range'_succ, List.foldlM_cons, addAtoms_missing fp a atoms hfind st,
    exceptBind_error]
/-- Success of one atom loop forces every atom to carry a charge. -/
theorem chargedAtoms_of_atomsPass_ok (shell : Nat) (fp : Nat → Nat → Fp)
    (f : Store → Nat → Fp → ℚ → Except OpErr Store) :
    ∀ (atoms : List (Nat × Option ℚ)) (st st' : Store),
      atoms.foldlM (fun st2 ac =>
        match ac.2 with
        | none => Except.error (OpErr.missingCharge ac.1)
        | some c => f st2 shell (fp ac.1 shell) c) st = .ok st' →
      chargedAtoms atoms := by
  intro atoms
  induction atoms with
  | nil =>
      intro st st' h ac hac
      simp at hac
  | cons ac0 rest ih =>
      intro st st' h
      obtain ⟨a0, c?⟩ := ac0
      cases c? with
      | none =>
          simp only [List.foldlM_cons] at h
          rw [exceptBind_error] at h
          exact absurd h (by simp)
      | some c =>
          simp only [List.foldlM_cons] at h
          cases hstep : f st shell (fp a0 shell) c with
          | error e =>
              rw [hstep, exceptBind_error] at h
              exact absurd h (by simp)
          | ok st1 =>
              rw [hstep, exceptBind_ok] at h
              have hch := ih st1 st' h
              intro ac hac
              rcases List.mem_cons.mp hac with h1 | h1
              · subst h1
                simp
              · exact hch ac h1
/-- Success of the whole `__iterate` traversal forces every atom to carry
a charge (shell 1 is always processed when `max_shell ≥ 1`). -/
theorem chargedAtoms_of_iterFragments_ok (atoms : List (Nat × Option ℚ))
    (fp : Nat → Nat → Fp) (maxShell : Nat)
    (f : Store → Nat → Fp → ℚ → Except OpErr Store) (st st' : Store)
    (hmax : 1 ≤ maxShell) (h : iterFragments atoms fp maxShell f st = .ok st') :
    chargedAtoms atoms := by
  unfold iterFragments at h
  obtain ⟨n, hn⟩ : ∃ n, maxShell = n + 1 := ⟨maxShell - 1, by omega⟩
  subst hn
  rw [List.range'_succ, List.foldlM_cons] at h
  cases hres : atoms.foldlM (fun st2 ac =>
      match ac.2 with
      | none => Except.error (OpErr.missingCharge ac.1)
      | some c => f st2 1 (fp ac.1 1) c) st with
  | error e =>
      rw [hres, exceptBind_error] at h
      exact absurd h (by simp)
  | ok st1 => exact chargedAtoms_of_atomsPass_ok 1 fp f atoms st st1 hres
/-- The removal fold raises only the bucket-lookup error, never the data
error. -/
theorem foldlM_subStep_error (ts : List (Nat × Fp × ℚ)) :
    ∀ (st : Store) (e : OpErr), ts.foldlM subStep st = .error e →
      e = .storeKeyErr := by
  induction ts with
  | nil =>
      intro st e h
      exact Except.noConfusion h
  | cons t ts ih =>
      intro st e h
      rw [List.foldlM_cons] at h
      cases hstep : subStep st t with
      | error e0 =>
          rw [hstep, exceptBind_error] at h
          have he0 : e0 = .storeKeyErr := by
            unfold subStep subCallback at hstep
            cases hrc : removeCharge st t.1 t.2.1 t.2.2 with
            | none =>
                rw [hrc] at hstep
                cases hstep
                rfl
            | some st2 =>
                rw [hrc] at hstep
                cases hstep
          have : e0 = e := by
            cases h
            rfl
          rw [← this]
          exact he0
      | ok st1 =>
          rw [hstep, exceptBind_ok] at h
          exact ih st1 e h
/-- C9: a molecule containing an atom without `partial_charge` makes `add`
raise the data error naming the first such atom and makes `subtract` fail
as a whole; a molecule whose atoms all carry `partial_charge` never
triggers that error: `add` succeeds outright and `subtract` can only raise
the bucket-lookup error. -/
theorem c9_missing_partial_charge (r : Repository) (files : Nat → MolIn) (molid : Nat)
    (isoI isoE : Iso) (hIi : r.isoIacm = some isoI) (hIe : r.isoElem = some isoE)
    (hmax : 1 ≤ r.maxShell) :
    (∀ a, (files molid).atoms.find? (fun ac => ac.2.isNone) = some (a, none) →
      Repository.add r files molid = .error (.missingCharge a) ∧
      ∀ r', Repository.subtract r files molid ≠ .ok r') ∧
    (chargedAtoms (files molid).atoms →
      (∃ r', Repository.add r files molid = .ok r') ∧
      ∀ a, Repository.subtract r files molid ≠ .error (.missingCharge a)) := by
  constructor
  · intro a hfind
    constructor
    · unfold Repository.add
      rw [hIi, hIe]
      simp only [iterIds_eq, List.foldlM_cons, List.foldlM_nil]
      rw [iterFragments_add_missing _ _ _ _ hmax a hfind]
      rfl
    · intro r' hok
      unfold Repository.subtract at hok
      rw [hIi, hIe] at hok
      simp only [iterIds_eq, List.foldlM_cons, List.foldlM_nil] at hok
      cases hres : iterFragments (files molid).atoms (files molid).fpIacm
          r.maxShell subCallback r.chargesIacm with
      | error e =>
          rw [hres] at hok
          exact Except.noConfusion hok
      | ok cI =>
          have hch := chargedAtoms_of_iterFragments_ok _ _ _ _ _ _ hmax hres
          have hmem := List.mem_of_find?_eq_some hfind
          exact absurd rfl (hch (a, none) hmem)
  · intro hch
    constructor
    · exact ⟨_, Repository.add_spec r files molid isoI isoE hIi hIe hch⟩
    · intro a hbad
      unfold Repository.subtract at hbad
      rw [hIi, hIe] at hbad
      simp only [iterIds_eq, List.foldlM_cons, List.foldlM_nil] at hbad
      rw [iterFragments_sub (files molid).atoms (files molid).fpIacm
        r.maxShell r.chargesIacm hch] at hbad
      cases hres : (molTriples (files molid).atoms (files molid).fpIacm
          r.maxShell).foldlM subStep r.chargesIacm with
      | error e =>
          rw [hres] at hbad
          have he := foldlM_subStep_error _ _ _ hres
          subst he
          exact OpErr.noConfusion (Except.error.inj hbad)
      | ok cI =>
          rw [hres] at hbad
          rw [iterFragments_sub (files molid).atoms (files molid).fpElem
            r.maxShell r.chargesElem hch] at hbad
          cases hres2 : (molTriples (files molid).atoms (files molid).fpElem
              r.maxShell).foldlM subStep r.chargesElem with
          | error e2 =>
              rw [hres2] at hbad
              have he2 := foldlM_subStep_error _ _ _ hres2
              subst he2
              exact OpErr.noConfusion (Except.error.inj hbad)
          | ok cE =>
              rw [hres2] at hbad
              exact Except.noConfusion hbad
/-- Witness for C9 at a concrete repository. -/
theorem c9_missing_partial_charge_witness :
    (∀ a, [((4 : Nat), (none : Option ℚ))].find? (fun ac => ac.2.isNone) =
        some (a, none) →
      Repository.add
        { minShell := 1, maxShell := 1, chargesIacm := [], chargesElem := [],
          isoIacm := some [], isoElem := some [] }
        (fun _ => ⟨[(4, none)], fun _ _ => "k", fun _ _ => "e"⟩) 3 =
          .error (.missingCharge a) ∧
      ∀ r', Repository.subtract
        { minShell := 1, maxShell := 1, chargesIacm := [], chargesElem := [],
          isoIacm := some [], isoElem := some [] }
        (fun _ => ⟨[(4, none)], fun _ _ => "k", fun _ _ => "e"⟩) 3 ≠ .ok r') ∧
    (chargedAtoms [((4 : Nat), (none : Option ℚ))] →
      (∃ r', Repository.add
        { minShell := 1, maxShell := 1, chargesIacm := [], chargesElem := [],
          isoIacm := some [], isoElem := some [] }
        (fun _ => ⟨[(4, none)], fun _ _ => "k", fun _ _ => "e"⟩) 3 = .ok r') ∧
      ∀ a, Repository.subtract
        { minShell := 1, maxShell := 1, chargesIacm := [], chargesElem := [],
          isoIacm := some [], isoElem := some [] }
        (fun _ => ⟨[(4, none)], fun _ _ => "k", fun _ _ => "e"⟩) 3 ≠
          .error (.missingCharge a)) :=
  c9_missing_partial_charge
    { minShell := 1, maxShell := 1, chargesIacm := [], chargesElem := [],
      isoIacm := some [], isoElem := some [] }
    (fun _ => ⟨[(4, none)], fun _ _ => "k", fun _ _ => "e"⟩) 3 [] []
    rfl rfl (by decide)
/-- A successful `s()` call keeps the store well-formed and changes no
bucket other than the addressed one. -/
theorem removeCharge_frame_wf (st : Store) (shell : Nat) (key : Fp) (c : ℚ)
    (st' : Store) (hwf : wfStore st) (h : removeCharge st shell key c = some st') :
    wfStore st' ∧
    ∀ s' k', ¬(s' = shell ∧ k' = key) → lookup2 st' s' k' = lookup2 st s' k' := by
  unfold removeCharge at h
  cases hd : dget st shell with
  | none =>
      simp only [hd] at h
      exact Option.noConfusion h
  | some d =>
  simp only [hd] at h
  cases hb : dget d key with
  | none =>
      simp only [hb] at h
      exact Option.noConfusion h
  | some l =>
  simp only [hb] at h
  by_cases hidx : bisectLeft l c < l.length
  · rw [if_pos hidx] at h
    have hst' : st' = (if (if (l.eraseIdx (bisectLeft l c)).isEmpty
        then derase d key else dset d key (l.eraseIdx (bisectLeft l c))).isEmpty
        then derase st shell
        else dset st shell (if (l.eraseIdx (bisectLeft l c)).isEmpty
          then derase d key else dset d key (l.eraseIdx (bisectLeft l c)))) := by
      cases h
      rfl
    have hdprops := hwf.2 _ (mem_of_dget_eq_some hd)
    have hsorted' : (l.eraseIdx (bisectLeft l c)).Sorted (· ≤ ·) :=
      ((hdprops.2.2 _ (mem_of_dget_eq_some hb)).2).sublist (List.eraseIdx_sublist l _)
    set l' := l.eraseIdx (bisectLeft l c) with hl'
    by_cases hle : l'.isEmpty
    · by_cases hde : (derase d key).isEmpty
      · rw [hst', if_pos hle, if_pos hde]
        refine ⟨⟨dkeys_derase_nodup _ _ hwf.1,
          fun p hp => hwf.2 p ((derase_sublist st shell).subset hp)⟩, ?_⟩
        intro s' k' hne
        by_cases hs : s' = shell
        · subst hs
          have hk : k' ≠ key := fun hk => hne ⟨rfl, hk⟩
          unfold lookup2
          rw [dget_derase_self st s' hwf.1, hd, Option.some_bind]
          rw [← dget_derase_ne d key k' hk, List.isEmpty_iff.mp hde]
          rfl
        · unfold lookup2
          rw [dget_derase_ne st shell s' hs]
      · rw [hst', if_pos hle, if_neg hde]
        refine ⟨⟨dkeys_dset_nodup _ _ _ hwf.1, ?_⟩, ?_⟩
        · intro p hp
          rcases mem_dset hp with hp' | hp'
          · exact hwf.2 p hp'
          · subst hp'
            exact ⟨dkeys_derase_nodup _ _ hdprops.1,
              fun hnil => hde (List.isEmpty_iff.mpr hnil),
              fun q hq => hdprops.2.2 q ((derase_sublist d key).subset hq)⟩
        · intro s' k' hne
          by_cases hs : s' = shell
          · subst hs
            have hk : k' ≠ key := fun hk => hne ⟨rfl, hk⟩
            unfold lookup2
            rw [dget_dset_self, Option.some_bind, dget_derase_ne d key k' hk,
              hd, Option.some_bind]
          · unfold lookup2
            rw [dget_dset_ne st shell s' _ hs]
    · have hdset : ¬(dset d key l').isEmpty := by
        simpa using dset_ne_nil d key l'
      rw [hst', if_neg hle, if_neg hdset]
      refine ⟨⟨dkeys_dset_nodup _ _ _ hwf.1, ?_⟩, ?_⟩
      · intro p hp
        rcases mem_dset hp with hp' | hp'
        · exact hwf.2 p hp'
        · subst hp'
          refine ⟨dkeys_dset_nodup _ _ _ hdprops.1, dset_ne_nil _ _ _, ?_⟩
          intro q hq
          rcases mem_dset hq with hq' | hq'
          · exact hdprops.2.2 q hq'
          · subst hq'
            exact ⟨fun hnil => hle (List.isEmpty_iff.mpr hnil), hsorted'⟩
      · intro s' k' hne
        by_cases hs : s' = shell
        · subst hs
          have hk : k' ≠ key := fun hk => hne ⟨rfl, hk⟩
          unfold lookup2
          rw [dget_dset_self, Option.some_bind, dget_dset_ne d key k' _ hk,
            hd, Option.some_bind]
        · unfold lookup2
          rw [dget_dset_ne st shell s' _ hs]
  · rw [if_neg hidx] at h
    exact Option.noConfusion h
/-- Frame of the removal fold: buckets not addressed by any triple are
unchanged; the store stays well-formed. -/
theorem foldRemM_frame (ts : List (Nat × Fp × ℚ)) :
    ∀ st st', wfStore st → ts.foldlM subStep st = .ok st' →
      wfStore st' ∧
      ∀ s k, (∀ t ∈ ts, ¬(t.1 = s ∧ t.2.1 = k)) →
        lookup2 st' s k = lookup2 st s k := by
  induction ts with
  | nil =>
      intro st st' hwf h
      cases h
      exact ⟨hwf, fun s k _ => rfl⟩
  | cons t ts ih =>
      intro st st' hwf h
      rw [List.foldlM_cons] at h
      cases hstep : subStep st t with
      | error e =>
          rw [hstep, exceptBind_error] at h
          exact Except.noConfusion h
      | ok st1 =>
          rw [hstep, exceptBind_ok] at h
          have hrc : removeCharge st t.1 t.2.1 t.2.2 = some st1 := by
            unfold subStep subCallback at hstep
            cases hrc0 : removeCharge st t.1 t.2.1 t.2.2 with
            | none => rw [hrc0] at hstep; exact Except.noConfusion hstep
            | some st2 =>
                rw [hrc0] at hstep
                cases hstep
                rfl
          obtain ⟨hwf1, hframe1⟩ := removeCharge_frame_wf st t.1 t.2.1 t.2.2 st1 hwf hrc
          obtain ⟨hwf', hframe'⟩ := ih st1 st' hwf1 h
          refine ⟨hwf', ?_⟩
          intro s k hno
          rw [hframe' s k (fun t' ht' => hno t' (List.mem_cons_of_mem _ ht'))]
          exact hframe1 s k (by
            intro hc
            exact hno t (List.mem_cons_self _ _) ⟨hc.1.symm, hc.2.symm⟩)
/-- Frame of the insertion fold: buckets not addressed by any triple are
unchanged. -/
theorem foldIns_frame (ts : List (Nat × Fp × ℚ)) :
    ∀ st s k, (∀ t ∈ ts, ¬(t.1 = s ∧ t.2.1 = k)) →
      lookup2 (foldIns st ts) s k = lookup2 st s k := by
  induction ts with
  | nil => intro st s k _; rfl
  | cons t ts ih =>
      intro st s k hno
      have hstep : foldIns st (t :: ts) =
          foldIns (insertCharge st t.1 t.2.1 t.2.2) ts := rfl
      rw [hstep, ih _ s k (fun t' ht' => hno t' (List.mem_cons_of_mem _ ht'))]
      exact insertCharge_lookup2_ne st t.1 t.2.1 t.2.2 s k (by
        intro hc
        exact hno t (List.mem_cons_self _ _) ⟨hc.1.symm, hc.2.symm⟩)
/-- C10: the isomorphism-index lookups in `__iterate` have no effect:
both traversal id sets are exactly `{molid}` (the `set.union` results are
discarded), `add`/`subtract` read only that molecule's file, and on
success only the buckets derived from that molecule's own atoms change —
molecules recorded as isomorphic are never added or subtracted alongside. -/
theorem c10_iterate_mutates_only_given_molecule (r : Repository)
    (files : Nat → MolIn) (molid : Nat) (isoI isoE : Iso)
    (hIi : r.isoIacm = some isoI) (hIe : r.isoElem = some isoE)
    (hch : chargedAtoms (files molid).atoms)
    (hwfI : wfStore r.chargesIacm) (hwfE : wfStore r.chargesElem) :
    iterIds molid isoI isoE = ([molid], [molid]) ∧
    (∀ files2 : Nat → MolIn, files2 molid = files molid →
      Repository.add r files2 molid = Repository.add r files molid ∧
      Repository.subtract r files2 molid = Repository.subtract r files molid) ∧
    (∀ r', Repository.add r files molid = .ok r' →
      (∀ s k, (∀ t ∈ molTriples (files molid).atoms (files molid).fpIacm r.maxShell,
          ¬(t.1 = s ∧ t.2.1 = k)) →
        lookup2 r'.chargesIacm s k = lookup2 r.chargesIacm s k) ∧
      (∀ s k, (∀ t ∈ molTriples (files molid).atoms (files molid).fpElem r.maxShell,
          ¬(t.1 = s ∧ t.2.1 = k)) →
        lookup2 r'.chargesElem s k = lookup2 r.chargesElem s k)) ∧
    (∀ r', Repository.subtract r files molid = .ok r' →
      (∀ s k, (∀ t ∈ molTriples (files molid).atoms (files molid).fpIacm r.maxShell,
          ¬(t.1 = s ∧ t.2.1 = k)) →
        lookup2 r'.chargesIacm s k = lookup2 r.chargesIacm s k) ∧
      (∀ s k, (∀ t ∈ molTriples (files molid).atoms (files molid).fpElem r.maxShell,
          ¬(t.1 = s ∧ t.2.1 = k)) →
        lookup2 r'.chargesElem s k = lookup2 r.chargesElem s k)) := by
  refine ⟨rfl, ?_, ?_, ?_⟩
  · intro files2 hf2
    constructor
    · unfold Repository.add
      rw [hIi, hIe]
      simp only [iterIds_eq, List.foldlM_cons, List.foldlM_nil]
      rw [hf2]
    · unfold Repository.subtract
      rw [hIi, hIe]
      simp only [iterIds_eq, List.foldlM_cons, List.foldlM_nil]
      rw [hf2]
  · intro r' hok
    have hadd := Repository.add_spec r files molid isoI isoE hIi hIe hch
    rw [hadd] at hok
    have hr' : r' = { r with
        chargesIacm := foldIns r.chargesIacm
          (molTriples (files molid).atoms (files molid).fpIacm r.maxShell),
        chargesElem := foldIns r.chargesElem
          (molTriples (files molid).atoms (files molid).fpElem r.maxShell) } :=
      (Except.ok.inj hok).symm
    subst hr'
    constructor
    · intro s k hno
      exact foldIns_frame _ _ s k hno
    · intro s k hno
      exact foldIns_frame _ _ s k hno
  · intro r' hok
    unfold Repository.subtract at hok
    rw [hIi, hIe] at hok
    simp only [iterIds_eq, List.foldlM_cons, List.foldlM_nil] at hok
    rw [iterFragments_sub (files molid).atoms (files molid).fpIacm
      r.maxShell r.chargesIacm hch] at hok
    cases hres : (molTriples (files molid).atoms (files molid).fpIacm
        r.maxShell).foldlM subStep r.chargesIacm with
    | error e =>
        rw [hres] at hok
        exact Except.noConfusion hok
    | ok cI =>
        rw [hres] at hok
        rw [iterFragments_sub (files molid).atoms (files molid).fpElem
          r.maxShell r.chargesElem hch] at hok
        cases hres2 : (molTriples (files molid).atoms (files molid).fpElem
            r.maxShell).foldlM subStep r.chargesElem with
        | error e2 =>
            rw [hres2] at hok
            exact Except.noConfusion hok
        | ok cE =>
            rw [hres2] at hok
            have hr' : r' =
                { minShell := r.minShell, maxShell := r.maxShell,
                  chargesIacm := cI, chargesElem := cE, isoIacm := some isoI,
                  isoElem := some isoE } :=
              (Except.ok.inj hok).symm
            subst hr'
            obtain ⟨-, hframeI⟩ := foldRemM_frame _ r.chargesIacm cI hwfI hres
            obtain ⟨-, hframeE⟩ := foldRemM_frame _ r.chargesElem cE hwfE hres2
            exact ⟨fun s k hno => hframeI s k hno, fun s k hno => hframeE s k hno⟩
/-- Witness for C10 at a concrete repository. -/
theorem c10_iterate_mutates_only_given_molecule_witness :
    iterIds 3 [] [] = ([3], [3]) ∧
    (∀ files2 : Nat → MolIn,
      files2 3 = (fun _ : Nat => (⟨[(0, some 1)], fun _ _ => "k",
          fun _ _ => "e"⟩ : MolIn)) 3 →
      Repository.add
        { minShell := 1, maxShell := 1, chargesIacm := [], chargesElem := [],
          isoIacm := some [], isoElem := some [] } files2 3 =
        Repository.add
          { minShell := 1, maxShell := 1, chargesIacm := [], chargesElem := [],
            isoIacm := some [], isoElem := some [] }
          (fun _ => ⟨[(0, some 1)], fun _ _ => "k", fun _ _ => "e"⟩) 3 ∧
      Repository.subtract
        { minShell := 1, maxShell := 1, chargesIacm := [], chargesElem := [],
          isoIacm := some [], isoElem := some [] } files2 3 =
        Repository.subtract
          { minShell := 1, maxShell := 1, chargesIacm := [], chargesElem := [],
            isoIacm := some [], isoElem := some [] }
          (fun _ => ⟨[(0, some 1)], fun _ _ => "k", fun _ _ => "e"⟩) 3) ∧
    (∀ r', Repository.add
        { minShell := 1, maxShell := 1, chargesIacm := [], chargesElem := [],
          isoIacm := some [], isoElem := some [] }
        (fun _ => ⟨[(0, some 1)], fun _ _ => "k", fun _ _ => "e"⟩) 3 = .ok r' →
      (∀ s k, (∀ t ∈ molTriples [(0, some 1)] (fun _ _ => "k") 1,
          ¬(t.1 = s ∧ t.2.1 = k)) →
        lookup2 r'.chargesIacm s k = lookup2 [] s k) ∧
      (∀ s k, (∀ t ∈ molTriples [(0, some 1)] (fun _ _ => "e") 1,
          ¬(t.1 = s ∧ t.2.1 = k)) →
        lookup2 r'.chargesElem s k = lookup2 [] s k)) ∧
    (∀ r', Repository.subtract
        { minShell := 1, maxShell := 1, chargesIacm := [], chargesElem := [],
          isoIacm := some [], isoElem := some [] }
        (fun _ => ⟨[(0, some 1)], fun _ _ => "k", fun _ _ => "e"⟩) 3 = .ok r' →
      (∀ s k, (∀ t ∈ molTriples [(0, some 1)] (fun _ _ => "k") 1,
          ¬(t.1 = s ∧ t.2.1 = k)) →
        lookup2 r'.chargesIacm s k = lookup2 [] s k) ∧
      (∀ s k, (∀ t ∈ molTriples [(0, some 1)] (fun _ _ => "e") 1,
          ¬(t.1 = s ∧ t.2.1 = k)) →
        lookup2 r'.chargesElem s k = lookup2 [] s k)) :=
  c10_iterate_mutates_only_given_molecule
    { minShell := 1, maxShell := 1, chargesIacm := [], chargesElem := [],
      isoIacm := some [], isoElem := some [] }
    (fun _ => ⟨[(0, some 1)], fun _ _ => "k", fun _ _ => "e"⟩) 3 [] []
    rfl rfl
    (fun ac hac => by
      simp only [List.mem_singleton] at hac
      subst hac
      simp)
    wfStore_nil wfStore_nil
/-- C1: `itertools.groupby` only groups consecutive equal keys, and
`molids` comes from `os.listdir` order, which is not sorted by canonical
key. With listing order `[1, 3, 2]` where molecules 1 and 2 share a
whole-molecule fingerprint and 3 does not, every run is a singleton and
the produced isomorphism index is empty, although 2 is isomorphic to 1:
the claimed index `{1: [1, 2], 2: [1, 2]}` is not produced. -/
theorem c1_groupby_misses_nonadjacent_isomorphs :
    makeIsomorphics [1, 3, 2] (fun n => if n = 3 then "b" else "a") = [] ∧
    (fun n : Nat => if n = 3 then "b" else "a") 1 =
      (fun n : Nat => if n = 3 then "b" else "a") 2 ∧
    (1 : Nat) ≠ 2 ∧
    makeIsomorphics [1, 2, 3] (fun n => if n = 3 then "b" else "a") =
      [(1, [1, 2]), (2, [1, 2])] := by
  refine ⟨rfl, rfl, by decide, rfl⟩
/-- C4: a dreadnaut process that exited with status 0 is NOT respawned —
`poll()` returns `0`, which is falsy, so the guard fails and the dead
process is kept, contradicting the claim (and the method's own docstring)
for exit status 0; with no process, a nonzero exit status, or a live
process, the call behaves as claimed. -/
theorem c4_exit_status_zero_not_respawned :
    ensureDreadnautRunning { process := some { exitCode := some 0 } } =
      { process := some { exitCode := some 0 } } ∧
    DreadnautProc.poll { exitCode := some 0 } ≠ none ∧
    ensureDreadnautRunning { process := none } =
      { process := some { exitCode := none } } ∧
    ensureDreadnautRunning { process := some { exitCode := some 1 } } =
      { process := some { exitCode := none } } ∧
    ensureDreadnautRunning { process := some { exitCode := none } } =
      { process := some { exitCode := none } } := by
  refine ⟨rfl, by simp [DreadnautProc.poll], rfl, rfl, rfl⟩
theorem decBucket_encBucket (l : Bucket) : decBucket (encBucket l) = some l := by
  unfold encBucket decBucket
  induction l with
  | nil => rfl
  | cons c rest ih =>
      simp only [List.map_cons, List.mapM_cons]
      simp only [List.map_cons] at ih
      rw [show decRat (MVal.mrat c) = some c from rfl]
      simp only [Option.bind_eq_bind, Option.some_bind] at ih ⊢
      rw [ih]
      rfl
theorem decNat_mint_natCast (n : Nat) : decNat (MVal.mint (n : Int)) = some n := by
  unfold decNat
  simp [Int.toNat_natCast]
theorem decShellDict_encShellDict (d : ShellDict) :
    decShellDict (encShellDict d) = some d := by
  unfold encShellDict decShellDict
  induction d with
  | nil => rfl
  | cons p rest ih =>
      simp only [List.map_cons, List.mapM_cons]
      rw [show decShellEntry (MVal.mstr p.1, encBucket p.2) =
        (decBucket (encBucket p.2)).map (fun b => (p.1, b)) from rfl,
        decBucket_encBucket]
      simp only [List.map_cons] at ih
      simp only [Option.bind_eq_bind, Option.some_bind, Option.map_some'] at ih ⊢
      rw [ih]
      rfl
theorem decStore_encStore (st : Store) : decStore (encStore st) = some st := by
  unfold encStore decStore
  induction st with
  | nil => rfl
  | cons p rest ih =>
      simp only [List.map_cons, List.mapM_cons]
      rw [show decStoreEntry (MVal.mint p.1, encShellDict p.2) =
        (decNat (MVal.mint p.1)).bind
          (fun s => (decShellDict (encShellDict p.2)).map (fun d => (s, d))) from rfl,
        decShellDict_encShellDict, decNat_mint_natCast]
      simp only [List.map_cons] at ih
      simp only [Option.bind_eq_bind, Option.some_bind, Option.map_some'] at ih ⊢
      rw [ih]
      rfl
theorem decIsoGroup_encIsoGroup (g : List Nat) :
    decIsoGroup (encIsoGroup g) = some g := by
  unfold encIsoGroup decIsoGroup
  induction g with
  | nil => rfl
  | cons m rest ih =>
      simp only [List.map_cons, List.mapM_cons]
      rw [decNat_mint_natCast]
      simp only [List.map_cons] at ih
      simp only [Option.bind_eq_bind, Option.some_bind] at ih ⊢
      rw [ih]
      rfl
theorem decIso_encIso (iso : Iso) : decIso (encIso iso) = some iso := by
  unfold encIso decIso
  induction iso with
  | nil => rfl
  | cons p rest ih =>
      simp only [List.map_cons, List.mapM_cons]
      rw [show decIsoEntry (MVal.mint p.1, encIsoGroup p.2) =
        (decNat (MVal.mint p.1)).bind
          (fun m => (decIsoGroup (encIsoGroup p.2)).map (fun g => (m, g))) from rfl,
        decIsoGroup_encIsoGroup, decNat_mint_natCast]
      simp only [List.map_cons] at ih
      simp only [Option.bind_eq_bind, Option.some_bind, Option.map_some'] at ih ⊢
      rw [ih]
      rfl
/-- C5: writing a repository (isomorphism indices present, possibly empty)
to an archive and reading the archive back restores the repository
exactly: shell bounds, both typed stores, and both isomorphism indices. -/
theorem c5_archive_roundtrip (r : Repository) (iI iE : Iso)
    (hIi : r.isoIacm = some iI) (hIe : r.isoElem = some iE) :
    ∃ a, Repository.write r = some a ∧ Repository.read a = some r := by
  refine ⟨{ meta := .marr [.mint r.minShell, .mint r.maxShell],
            charges_iacm := encStore r.chargesIacm,
            charges_elem := encStore r.chargesElem,
            iso_iacm := encIso iI,
            iso_elem := encIso iE }, ?_, ?_⟩
  · unfold Repository.write
    rw [hIi, hIe]
  · unfold Repository.read
    simp only []
    rw [decNat_mint_natCast, decNat_mint_natCast]
    rw [decStore_encStore, decStore_encStore, decIso_encIso, decIso_encIso]
    simp only [Option.some_bind]
    rw [← hIi, ← hIe]
/-- Witness for C5 at a concrete repository. -/
theorem c5_archive_roundtrip_witness :
    ∃ a, Repository.write
      { minShell := 1, maxShell := 2,
        chargesIacm := [(1, [("k", [0, 1])])], chargesElem := [],
        isoIacm := some [(1, [1, 2]), (2, [1, 2])], isoElem := some [] } = some a ∧
    Repository.read a = some
      { minShell := 1, maxShell := 2,
        chargesIacm := [(1, [("k", [0, 1])])], chargesElem := [],
        isoIacm := some [(1, [1, 2]), (2, [1, 2])], isoElem := some [] } :=
  c5_archive_roundtrip
    { minShell := 1, maxShell := 2,
      chargesIacm := [(1, [("k", [0, 1])])], chargesElem := [],
      isoIacm := some [(1, [1, 2]), (2, [1, 2])], isoElem := some [] }
    [(1, [1, 2]), (2, [1, 2])] [] rfl rfl
theorem dget_map_snd {K V W : Type} [DecidableEq K] (f : V → W)
    (l : List (K × V)) (k : K) :
    dget (l.map (fun p => (p.1, f p.2))) k = (dget l k).map f := by
  induction l with
  | nil => rfl
  | cons p rest ih =>
      obtain ⟨k0, v0⟩ := p
      by_cases hk : k = k0
      · subst hk
        simp [dget]
      · simp [dget, hk, ih]
theorem chargesWithoutBlocked_cons (c : ℚ) (mid at0 : Nat) (rest : TBucket)
    (blocked : List Nat) :
    chargesWithoutBlocked ((c, mid, at0) :: rest) blocked =
      if mid ∈ blocked then chargesWithoutBlocked rest blocked
      else c :: chargesWithoutBlocked rest blocked := rfl
theorem filteredCopy_eq_chargesWithoutBlocked (tcs : TBucket) (blocked : List Nat) :
    filteredCopy tcs blocked = chargesWithoutBlocked tcs blocked := by
  induction tcs with
  | nil => rfl
  | cons t rest ih =>
      obtain ⟨c, mid, at0⟩ := t
      rw [chargesWithoutBlocked_cons]
      by_cases hb : mid ∈ blocked
      · rw [if_pos hb]
        unfold filteredCopy at ih ⊢
        rw [List.filter_cons_of_neg (by simpa using hb)]
        exact ih
      · rw [if_neg hb]
        unfold filteredCopy at ih ⊢
        rw [List.filter_cons_of_pos (by simpa using hb), List.map_cons, ih]
/-- C7: for a `_FilteredRepository` built over a traceable repository, the
exclusion set is `{molid}` when `molid` is absent from the isomorphism
index and the full recorded group otherwise; every shell facade wraps the
underlying shell dict unmodified; a lookup returns the underlying bucket's
charges with all entries of excluded molids removed, never an empty list
(raising key-not-found instead, also when the key is absent), and the
facade's assignment and deletion operations change nothing. -/
theorem c7_filtered_view_semantics (repo : TraceableRepository) (molid : Nat) :
    ((dget repo.iso_iacm molid = none →
      ∀ p ∈ (filteredRepository repo molid).charges_iacm,
        p.2.blocked_molids = [molid]) ∧
    (∀ g, dget repo.iso_iacm molid = some g →
      ∀ p ∈ (filteredRepository repo molid).charges_iacm,
        p.2.blocked_molids = g) ∧
    (dget repo.iso_elem molid = none →
      ∀ p ∈ (filteredRepository repo molid).charges_elem,
        p.2.blocked_molids = [molid]) ∧
    (∀ g, dget repo.iso_elem molid = some g →
      ∀ p ∈ (filteredRepository repo molid).charges_elem,
        p.2.blocked_molids = g)) ∧
    ((∀ shell d, dget repo.charges_iacm shell = some d →
      ∃ fc, dget (filteredRepository repo molid).charges_iacm shell = some fc ∧
        fc.charges = d) ∧
    (∀ shell d, dget repo.charges_elem shell = some d →
      ∃ fc, dget (filteredRepository repo molid).charges_elem shell = some fc ∧
        fc.charges = d)) ∧
    (∀ fc : FilteredCharges, ∀ key,
      (∀ tcs, dget fc.charges key = some tcs →
        (chargesWithoutBlocked tcs fc.blocked_molids ≠ [] →
          fc.getItem key = some (chargesWithoutBlocked tcs fc.blocked_molids)) ∧
        (chargesWithoutBlocked tcs fc.blocked_molids = [] →
          fc.getItem key = none)) ∧
      (dget fc.charges key = none → fc.getItem key = none) ∧
      fc.getItem key ≠ some [] ∧
      (∀ v, fc.setItem key v = fc) ∧
      fc.delItem key = fc) := by
  have hblockedI : ∀ p ∈ (filteredRepository repo molid).charges_iacm,
      p.2.blocked_molids =
        (if dmem repo.iso_iacm molid then (dget repo.iso_iacm molid).getD []
         else [molid]) := by
    intro p hp
    unfold filteredRepository at hp
    simp only [List.mem_map] at hp
    obtain ⟨q, -, hq⟩ := hp
    rw [← hq]
  have hblockedE : ∀ p ∈ (filteredRepository repo molid).charges_elem,
      p.2.blocked_molids =
        (if dmem repo.iso_elem molid then (dget repo.iso_elem molid).getD []
         else [molid]) := by
    intro p hp
    unfold filteredRepository at hp
    simp only [List.mem_map] at hp
    obtain ⟨q, -, hq⟩ := hp
    rw [← hq]
  refine ⟨⟨?_, ?_, ?_, ?_⟩, ⟨?_, ?_⟩, ?_⟩
  · intro hnone p hp
    rw [hblockedI p hp, if_neg (by simp [dmem, hnone])]
  · intro g hsome p hp
    rw [hblockedI p hp, if_pos (by simp [dmem, hsome]), hsome]
    rfl
  · intro hnone p hp
    rw [hblockedE p hp, if_neg (by simp [dmem, hnone])]
  · intro g hsome p hp
    rw [hblockedE p hp, if_pos (by simp [dmem, hsome]), hsome]
    rfl
  · intro shell d hd
    unfold filteredRepository
    simp only []
    rw [dget_map_snd (fun d2 => (⟨d2, _⟩ : FilteredCharges)) repo.charges_iacm shell,
      hd]
    exact ⟨_, rfl, rfl⟩
  · intro shell d hd
    unfold filteredRepository
    simp only []
    rw [dget_map_snd (fun d2 => (⟨d2, _⟩ : FilteredCharges)) repo.charges_elem shell,
      hd]
    exact ⟨_, rfl, rfl⟩
  · intro fc key
    refine ⟨?_, ?_, ?_, fun v => rfl, rfl⟩
    · intro tcs htcs
      constructor
      · intro hne
        unfold FilteredCharges.getItem
        rw [htcs]
        simp only [filteredCopy_eq_chargesWithoutBlocked]
        rw [if_neg (by simpa [List.length_eq_zero] using hne)]
      · intro heq
        unfold FilteredCharges.getItem
        rw [htcs]
        simp only [filteredCopy_eq_chargesWithoutBlocked]
        rw [if_pos (by simp [heq])]
    · intro hnone
      unfold FilteredCharges.getItem
      rw [hnone]
    · intro hbad
      unfold FilteredCharges.getItem at hbad
      cases htcs : dget fc.charges key with
      | none => rw [htcs] at hbad; exact Option.noConfusion hbad
      | some tcs =>
          rw [htcs] at hbad
          simp only [] at hbad
          by_cases hlen : (filteredCopy tcs fc.blocked_molids).length = 0
          · rw [if_pos hlen] at hbad
            exact Option.noConfusion hbad
          · rw [if_neg hlen] at hbad
            have : (filteredCopy tcs fc.blocked_molids) = [] := Option.some.inj hbad
            exact hlen (by rw [this]; rfl)
/-- Witness for C7 at a concrete traceable repository. -/
theorem c7_filtered_view_semantics_witness :
    ((dget (TraceableRepository.mk [(1, [("k", [((1 : ℚ), 8, 0), (1/2, 9, 1)])])]
        [] [(8, [8, 9]), (9, [8, 9])] []).iso_iacm 8 = none →
      ∀ p ∈ (filteredRepository (TraceableRepository.mk
          [(1, [("k", [((1 : ℚ), 8, 0), (1/2, 9, 1)])])]
          [] [(8, [8, 9]), (9, [8, 9])] []) 8).charges_iacm,
        p.2.blocked_molids = [8]) ∧
    (∀ g, dget (TraceableRepository.mk [(1, [("k", [((1 : ℚ), 8, 0), (1/2, 9, 1)])])]
        [] [(8, [8, 9]), (9, [8, 9])] []).iso_iacm 8 = some g →
      ∀ p ∈ (filteredRepository (TraceableRepository.mk
          [(1, [("k", [((1 : ℚ), 8, 0), (1/2, 9, 1)])])]
          [] [(8, [8, 9]), (9, [8, 9])] []) 8).charges_iacm,
        p.2.blocked_molids = g) ∧
    (dget (TraceableRepository.mk [(1, [("k", [((1 : ℚ), 8, 0), (1/2, 9, 1)])])]
        [] [(8, [8, 9]), (9, [8, 9])] []).iso_elem 8 = none →
      ∀ p ∈ (filteredRepository (TraceableRepository.mk
          [(1, [("k", [((1 : ℚ), 8, 0), (1/2, 9, 1)])])]
          [] [(8, [8, 9]), (9, [8, 9])] []) 8).charges_elem,
        p.2.blocked_molids = [8]) ∧
    (∀ g, dget (TraceableRepository.mk [(1, [("k", [((1 : ℚ), 8, 0), (1/2, 9, 1)])])]
        [] [(8, [8, 9]), (9, [8, 9])] []).iso_elem 8 = some g →
      ∀ p ∈ (filteredRepository (TraceableRepository.mk
          [(1, [("k", [((1 : ℚ), 8, 0), (1/2, 9, 1)])])]
          [] [(8, [8, 9]), (9, [8, 9])] []) 8).charges_elem,
        p.2.blocked_molids = g)) ∧
    ((∀ shell d, dget (TraceableRepository.mk
        [(1, [("k", [((1 : ℚ), 8, 0), (1/2, 9, 1)])])]
        [] [(8, [8, 9]), (9, [8, 9])] []).charges_iacm shell = some d →
      ∃ fc, dget (filteredRepository (TraceableRepository.mk
          [(1, [("k", [((1 : ℚ), 8, 0), (1/2, 9, 1)])])]
          [] [(8, [8, 9]), (9, [8, 9])] []) 8).charges_iacm shell = some fc ∧
        fc.charges = d) ∧
    (∀ shell d, dget (TraceableRepository.mk
        [(1, [("k", [((1 : ℚ), 8, 0), (1/2, 9, 1)])])]
        [] [(8, [8, 9]), (9, [8, 9])] []).charges_elem shell = some d →
      ∃ fc, dget (filteredRepository (TraceableRepository.mk
          [(1, [("k", [((1 : ℚ), 8, 0), (1/2, 9, 1)])])]
          [] [(8, [8, 9]), (9, [8, 9])] []) 8).charges_elem shell = some fc ∧
        fc.charges = d)) ∧
    (∀ fc : FilteredCharges, ∀ key,
      (∀ tcs, dget fc.charges key = some tcs →
        (chargesWithoutBlocked tcs fc.blocked_molids ≠ [] →
          fc.getItem key = some (chargesWithoutBlocked tcs fc.blocked_molids)) ∧
        (chargesWithoutBlocked tcs fc.blocked_molids = [] →
          fc.getItem key = none)) ∧
      (dget fc.charges key = none → fc.getItem key = none) ∧
      fc.getItem key ≠ some [] ∧
      (∀ v, fc.setItem key v = fc) ∧
      fc.delItem key = fc) :=
  c7_filtered_view_semantics
    (TraceableRepository.mk [(1, [("k", [((1 : ℚ), 8, 0), (1/2, 9, 1)])])]
      [] [(8, [8, 9]), (9, [8, 9])] []) 8
